import Mathlib

/-!
# Verification of the JSONL index / record-store toolset

This file is a shallow embedding of the documentation JSONL indexing and
lookup toolset of the repository (the files
tools/build_jsonl_index.py, tools/build_title_index.py,
tools/data_structures_utils.py, tools/data_structures_search.py), together
with proofs about the embedded definitions.

Modelling conventions:
* Python strings and the bytes of the corpus file are both modelled as
  `List Char` (`Str`).  The corpus files are UTF-8 text; we count offsets
  and lengths in characters, which coincides with bytes on ASCII data and
  keeps the builder's offset accounting and the reader's seeks in the same
  unit, exactly as the two Python sides share the byte unit.
* Python character classes (whitespace, digits, upper-casing) are modelled
  on their ASCII behaviour, which is the relevant one for the `DOC######`
  ids, JSON punctuation and whitespace this toolset manipulates.
* `json.loads` / `json.dump` of the Python standard library are modelled by
  an executable recursive-descent parser and a serializer over a JSON value
  type covering objects, arrays, strings (with escapes, including the
  \uXXXX form for BMP scalars), integer numbers, booleans and null - the
  grammar fragment this toolset's data uses (fraction/exponent numbers and
  lone-surrogate escapes are not modelled).
* File-system state is passed explicitly (the corpus content, the manifest,
  the per-module files, the on-disk index) and the module-level index cache
  of data_structures_utils.py becomes an explicit state record.
-/

namespace PyTc

/-- Python strings / byte strings are modelled as lists of characters. -/
abbrev Str := List Char

/-! ## Python string primitives -/

/-- ASCII whitespace, the class stripped by Python str.strip / bytes.strip. -/
def pyWs (c : Char) : Bool :=
  c = ' ' || c = '\t' || c = '\n' || c = '\r' || c = '\x0b' || c = '\x0c'

/-- Python strip(): removes leading and trailing whitespace. -/
def pyStrip (l : Str) : Str :=
  ((l.dropWhile pyWs).reverse.dropWhile pyWs).reverse

/-- First maximal run of decimal digits in a string, as matched by the
regular expression (\d+) used in normalize_id and id_to_int. -/
def firstDigitRun (l : Str) : Option Str :=
  match l.dropWhile (fun c => !c.isDigit) with
  | [] => none
  | c :: cs => some ((c :: cs).takeWhile Char.isDigit)

/-- Numeric value of a run of decimal digit characters (Python int()). -/
def digitsVal (ds : Str) : Nat :=
  ds.foldl (fun a c => 10 * a + (c.toNat - 48)) 0

/-- Decimal digits of a natural number, least significant first, computed
with explicit fuel so that it evaluates inside the kernel. -/
def natDigitsF : Nat → Nat → List Nat
  | 0, _ => []
  | _, 0 => []
  | fuel + 1, n + 1 => (n + 1) % 10 :: natDigitsF fuel ((n + 1) / 10)

/-- Decimal rendering of a natural number (Python str(int)). -/
def natRepr (n : Nat) : Str :=
  if n = 0 then ['0']
  else ((natDigitsF n n).reverse.map (fun d => Char.ofNat (48 + d)))

/-- Python format specifier 06d: zero-pad the decimal rendering to a
minimum width of six characters. -/
def pad6 (n : Nat) : Str :=
  List.replicate (6 - (natRepr n).length) '0' ++ natRepr n

/-- Source: data_structures_utils.normalize_id.  Strip and upper-case the
input, extract the first run of digits; if none, return the cleaned input
unchanged, otherwise format the digits' value as DOC plus 06d padding. -/
def normalize_id (raw : Str) : Str :=
  let cleaned := (pyStrip raw).map Char.toUpper
  match firstDigitRun cleaned with
  | none => cleaned
  | some ds => ['D', 'O', 'C'] ++ pad6 (digitsVal ds)

/-- Source: data_structures_utils.id_to_int.  Numeric value of the first
digit run of an id, if any. -/
def id_to_int (doc_id : Str) : Option Int :=
  (firstDigitRun doc_id).map (fun ds => (digitsVal ds : Int))

/-- Canonical-id shape DOC followed by exactly six decimal digits
(the regular expression ^DOC\d6$ of the specification). -/
def isCanonId (s : Str) : Bool :=
  match s with
  | 'D' :: 'O' :: 'C' :: ds => ds.length == 6 && ds.all Char.isDigit
  | _ => false

/-! ## Substring search and line splitting -/

/-- Helper for findSub: first index at or after the current position where
the pattern occurs. -/
def findSubAux (pat : Str) : Str → Nat → Option Nat
  | [], _ => none
  | c :: cs, k => if pat.isPrefixOf (c :: cs) then some k else findSubAux pat cs (k + 1)

/-- Python bytes.find for a non-empty pattern: index of the first
occurrence, or none. -/
def findSub (pat s : Str) : Option Nat :=
  findSubAux pat s 0

/-- Helper for splitLines, carrying the current line in reverse. -/
def splitLinesAux : Str → Str → List Str
  | [], acc => if acc.isEmpty then [] else [acc.reverse]
  | c :: cs, acc =>
    if c = '\n' then (acc.reverse ++ ['\n']) :: splitLinesAux cs []
    else splitLinesAux cs (c :: acc)

/-- Iterating a Python file object line by line: each yielded line keeps its
trailing newline; a final unterminated line is yielded as well. -/
def splitLines (s : Str) : List Str :=
  splitLinesAux s []

/-! ## JSON values -/

/-- JSON values, as produced by json.loads on this toolset's data. -/
inductive Jv where
  | nul : Jv
  | bool (b : Bool) : Jv
  | num (n : Int) : Jv
  | str (s : Str) : Jv
  | arr (items : List Jv) : Jv
  | obj (fields : List (Str × Jv)) : Jv

/-- Python dict lookup (.get) on a parsed JSON object: with duplicate keys
json.loads keeps the last occurrence, hence the reversed search.  Returns
none on a missing key and on non-object values. -/
def jGet (v : Jv) (key : Str) : Option Jv :=
  match v with
  | .obj fields => (fields.reverse.find? (fun p => decide (p.1 = key))).map (·.2)
  | _ => none

/-- Python truthiness of a parsed JSON value. -/
def jvTruthy : Jv → Bool
  | .nul => false
  | .bool b => b
  | .num n => decide (n ≠ 0)
  | .str s => !s.isEmpty
  | .arr l => !l.isEmpty
  | .obj l => !l.isEmpty

/-! ## The JSON parser (model of json.loads) -/

/-- JSON whitespace skipped between tokens. -/
def jWs (c : Char) : Bool :=
  c = ' ' || c = '\t' || c = '\n' || c = '\r'

/-- Skip JSON whitespace. -/
def skipWs (s : Str) : Str := s.dropWhile jWs

/-- Value of one hexadecimal digit character. -/
def hexVal (c : Char) : Option Nat :=
  if c.isDigit then some (c.toNat - 48)
  else if 'a' ≤ c ∧ c ≤ 'f' then some (c.toNat - 87)
  else if 'A' ≤ c ∧ c ≤ 'F' then some (c.toNat - 55)
  else none

/-- Translation of the two-character escape sequences of JSON strings. -/
def escMap (e : Char) : Option Char :=
  if e = '"' then some '"'
  else if e = '\\' then some '\\'
  else if e = '/' then some '/'
  else if e = 'n' then some '\n'
  else if e = 't' then some '\t'
  else if e = 'r' then some '\r'
  else if e = 'b' then some '\x08'
  else if e = 'f' then some '\x0c'
  else none

/-- Parse the body of a JSON string (the opening quote already consumed),
returning the decoded string and the rest of the input.  Strict mode as in
json.loads: raw control characters are rejected. -/
def pstr : Nat → Str → Option (Str × Str)
  | 0, _ => none
  | fuel + 1, s =>
    match s with
    | [] => none
    | c :: r =>
      if c = '"' then some ([], r)
      else if c = '\\' then
        match r with
        | [] => none
        | e :: r2 =>
          if e = 'u' then
            match r2 with
            | h1 :: h2 :: h3 :: h4 :: r3 =>
              match hexVal h1, hexVal h2, hexVal h3, hexVal h4 with
              | some a, some b, some c3, some d =>
                let v := 4096 * a + 256 * b + 16 * c3 + d
                if v < 55296 then
                  (pstr fuel r3).map (fun p => (Char.ofNat v :: p.1, p.2))
                else none
              | _, _, _, _ => none
            | _ => none
          else
            match escMap e with
            | some ec => (pstr fuel r2).map (fun p => (ec :: p.1, p.2))
            | none => none
      else if c.toNat < 32 then none
      else (pstr fuel r).map (fun p => (c :: p.1, p.2))

/-- Parse an unsigned JSON integer literal (no leading zeros). -/
def pnat (s : Str) : Option (Nat × Str) :=
  match s.takeWhile Char.isDigit with
  | [] => none
  | d :: ds =>
    if d = '0' ∧ ds ≠ [] then none
    else some (digitsVal (d :: ds), s.drop (ds.length + 1))

mutual

/-- Parse one JSON value (leading whitespace allowed), returning the value
and the rest of the input. -/
def pval : Nat → Str → Option (Jv × Str)
  | 0, _ => none
  | fuel + 1, s =>
    match skipWs s with
    | [] => none
    | c :: r =>
      if c = '{' then
        match skipWs r with
        | [] => none
        | c2 :: r2 =>
          if c2 = '}' then some (.obj [], r2)
          else (pmembers fuel r).map (fun p => (.obj p.1, p.2))
      else if c = '[' then
        match skipWs r with
        | [] => none
        | c2 :: r2 =>
          if c2 = ']' then some (.arr [], r2)
          else (pitems fuel r).map (fun p => (.arr p.1, p.2))
      else if c = '"' then
        (pstr fuel r).map (fun p => (.str p.1, p.2))
      else if c = 't' then
        match r with
        | 'r' :: 'u' :: 'e' :: r2 => some (.bool true, r2)
        | _ => none
      else if c = 'f' then
        match r with
        | 'a' :: 'l' :: 's' :: 'e' :: r2 => some (.bool false, r2)
        | _ => none
      else if c = 'n' then
        match r with
        | 'u' :: 'l' :: 'l' :: r2 => some (.nul, r2)
        | _ => none
      else if c = '-' then
        (pnat r).map (fun p => (.num (-(p.1 : Int)), p.2))
      else if c.isDigit then
        (pnat (c :: r)).map (fun p => (.num (p.1 : Int), p.2))
      else none

/-- Parse the members of a JSON object, starting at the first key and
ending after the closing brace. -/
def pmembers : Nat → Str → Option (List (Str × Jv) × Str)
  | 0, _ => none
  | fuel + 1, s =>
    match skipWs s with
    | [] => none
    | c :: r =>
      if c = '"' then
        match pstr fuel r with
        | none => none
        | some kr =>
          match skipWs kr.2 with
          | [] => none
          | c2 :: r2 =>
            if c2 = ':' then
              match pval fuel r2 with
              | none => none
              | some vr =>
                match skipWs vr.2 with
                | [] => none
                | c3 :: r4 =>
                  if c3 = ',' then (pmembers fuel r4).map (fun p => ((kr.1, vr.1) :: p.1, p.2))
                  else if c3 = '}' then some ([(kr.1, vr.1)], r4)
                  else none
            else none
      else none

/-- Parse the items of a JSON array, starting at the first item and ending
after the closing bracket. -/
def pitems : Nat → Str → Option (List Jv × Str)
  | 0, _ => none
  | fuel + 1, s =>
    match pval fuel s with
    | none => none
    | some vr =>
      match skipWs vr.2 with
      | [] => none
      | c :: r2 =>
        if c = ',' then (pitems fuel r2).map (fun p => (vr.1 :: p.1, p.2))
        else if c = ']' then some ([vr.1], r2)
        else none

end

/-- Model of json.loads: parse one JSON document; trailing data other than
whitespace is an error. -/
def jsonParse (s : Str) : Option Jv :=
  match pval (s.length + 2) s with
  | none => none
  | some vr => if skipWs vr.2 = [] then some vr.1 else none

/-! ## The corpus writer (JSON serialization of records) -/

/-- One documentation record of the corpus data model (the required string
fields; the heavy content field is the last one on each line). -/
structure Record where
  id : Str
  title : Str
  rel_path : Str
  content : Str
deriving DecidableEq

/-- The id key. -/
def kId : Str := ['i', 'd']
/-- The title key. -/
def kTitle : Str := ['t', 'i', 't', 'l', 'e']
/-- The rel_path key. -/
def kRelPath : Str := ['r', 'e', 'l', '_', 'p', 'a', 't', 'h']
/-- The content key. -/
def kContent : Str := ['c', 'o', 'n', 't', 'e', 'n', 't']

/-- Lower-case hexadecimal digit character. -/
def hexDigitChar (n : Nat) : Char :=
  Char.ofNat (if n < 10 then 48 + n else 87 + n)

/-- JSON string escaping of one character, as json.dump writes it:
quote, backslash and the named control characters get two-character
escapes, other control characters the \u00XX form, anything else is
written verbatim. -/
def eChar (c : Char) : Str :=
  if c = '"' then ['\\', '"']
  else if c = '\\' then ['\\', '\\']
  else if c = '\n' then ['\\', 'n']
  else if c = '\r' then ['\\', 'r']
  else if c = '\t' then ['\\', 't']
  else if c = '\x08' then ['\\', 'b']
  else if c = '\x0c' then ['\\', 'f']
  else if c.toNat < 32 then
    ['\\', 'u', '0', '0', hexDigitChar (c.toNat / 16), hexDigitChar (c.toNat % 16)]
  else [c]

/-- JSON string escaping of a whole string. -/
def eStr : Str → Str
  | [] => []
  | c :: cs => eChar c ++ eStr cs

/-- One serialized key/value member, both strings: "key": "escaped value". -/
def encodeField (k v : Str) : Str :=
  '"' :: k ++ '"' :: ':' :: ' ' :: '"' :: eStr v ++ ['"']

/-- Serialized members of an object of string fields, separated by
comma-space as json.dump writes them. -/
def encodeFields : List (Str × Str) → Str
  | [] => []
  | [kv] => encodeField kv.1 kv.2
  | kv :: rest => encodeField kv.1 kv.2 ++ ',' :: ' ' :: encodeFields rest

/-- The field list of a record, content last, as the corpus stores it. -/
def recordFields (r : Record) : List (Str × Str) :=
  [(kId, r.id), (kTitle, r.title), (kRelPath, r.rel_path), (kContent, r.content)]

/-- Modelled from the spec: the corpus writer (out of scope in the
repository - the corpus is read-only input there) emits one JSON object
per line with the keys id, title, rel_path and content in that order, each
line terminated by a newline. -/
def encodeRecord (r : Record) : Str :=
  '{' :: encodeFields (recordFields r) ++ '}' :: ['\n']

/-- A whole corpus file: the concatenation of the records' lines. -/
def corpusOf : List Record → Str
  | [] => []
  | r :: rs => encodeRecord r ++ corpusOf rs

/-- The JSON value that json.loads returns for a record's line. -/
def recordJv (r : Record) : Jv :=
  .obj [(kId, .str r.id), (kTitle, .str r.title),
        (kRelPath, .str r.rel_path), (kContent, .str r.content)]

/-! ## The index builder (tools/build_jsonl_index.py, main) -/

/-- The literal byte pattern searched by the builder on every line. -/
def contentMarker : Str := '"' :: kContent ++ ['"', ':']

/-- Python: if pre ends with a comma, drop it. -/
def stripTrailingComma (s : Str) : Str :=
  if s.getLast? = some ',' then s.dropLast else s

/-- Metadata extraction from an already-parsed line object: the id must be
a non-empty string (the builder skips falsy ids), title and rel_path
default to the empty string. -/
def metaOfJv (m : Jv) : Option (Str × Jv × Jv) :=
  match m with
  | .obj fields =>
    match jGet (.obj fields) kId with
    | some (.str i) =>
      if i = [] then none
      else some (i, (jGet (.obj fields) kTitle).getD (.str []),
                 (jGet (.obj fields) kRelPath).getD (.str []))
    | _ => none
  | _ => none

/-- Source: the per-line body of build_jsonl_index.main.  Locate the
literal "content": in the line; if found at a positive index, parse only
the slice before it (stripped, trailing comma removed, a closing brace
appended); otherwise fall back to parsing the whole line.  Any failure
(parse error, missing or falsy id) skips the line. -/
def lineMeta (line : Str) : Option (Str × Jv × Jv) :=
  match findSub contentMarker line with
  | some idx =>
    if 0 < idx then
      match jsonParse (stripTrailingComma (pyStrip (line.take idx)) ++ ['}']) with
      | some m => metaOfJv m
      | none => none
    else
      match jsonParse line with
      | some m => metaOfJv m
      | none => none
  | none =>
    match jsonParse line with
    | some m => metaOfJv m
    | none => none

/-- The sidecar index in memory: insertion-ordered key/value pairs with
the overwrite semantics of a Python dict. -/
def dictInsert (d : List (Str × α)) (k : Str) (v : α) : List (Str × α) :=
  if d.any (fun p => decide (p.1 = k)) then
    d.map (fun p => if p.1 = k then (k, v) else p)
  else d ++ [(k, v)]

/-- Python dict lookup on the in-memory index. -/
def dictGet (d : List (Str × α)) (k : Str) : Option α :=
  (d.find? (fun p => decide (p.1 = k))).map (·.2)

/-- One index entry value: byte offset of the line start, title, rel_path
(the latter two as the parsed JSON values the builder stored). -/
abbrev MetaV := Nat × Jv × Jv

/-- Source: the loop body of build_jsonl_index.main.  The state is the
running byte offset and the index built so far; the offset advances by the
full line length whether or not the line was indexed. -/
def buildStep (st : Nat × List (Str × MetaV)) (line : Str) : Nat × List (Str × MetaV) :=
  let idx2 := match lineMeta line with
    | some (i, t, p) => dictInsert st.2 i (st.1, t, p)
    | none => st.2
  (st.1 + line.length, idx2)

/-- Index build over an explicit list of lines. -/
def buildFromLines (lines : List Str) : List (Str × MetaV) :=
  (lines.foldl buildStep (0, [])).2

/-- Source: build_jsonl_index.main. Scan the corpus file line by line and
build the sidecar index. -/
def build_jsonl_index (file : Str) : List (Str × MetaV) :=
  buildFromLines (splitLines file)

/-! ## The record store (tools/data_structures_utils.py) -/

/-- Python file.readline from a seek position: everything up to and
including the first newline (or up to the end of the file). -/
def readline (s : Str) : Str :=
  s.takeWhile (fun c => !(c = '\n')) ++ (s.dropWhile (fun c => !(c = '\n'))).take 1

/-- Source: data_structures_utils.get_doc.  Normalize the id, look it up in
the index; if absent return none, otherwise seek to the stored offset in
the corpus file, read one line and parse it.  (A JSON error on a stale
index would raise in Python; the claims under study only exercise reads
through a matching index, where the parse result is returned as is.) -/
def get_doc (index : List (Str × MetaV)) (corpus : Str) (doc_id : Str) : Option Jv :=
  let did := normalize_id doc_id
  match dictGet index did with
  | none => none
  | some meta => jsonParse (readline (corpus.drop meta.1))

/-- Python: allowed = the set of normalized ids if the ids argument is
truthy (non-None and non-empty), else None. -/
def allowedOf (ids : Option (List Str)) : Option (List Str) :=
  match ids with
  | none => none
  | some l => if l.isEmpty then none else some (l.map normalize_id)

/-- Python: skip when allowed is truthy and the id is not in it. -/
def passesAllow (allowed : Option (List Str)) (d : Str) : Bool :=
  match allowed with
  | none => true
  | some al => al.isEmpty || decide (d ∈ al)

/-- Python: skip when id_min is set and the numeric part is missing or
below it. -/
def belowMin (numeric : Option Int) (lo : Option Int) : Bool :=
  match lo with
  | none => false
  | some l => match numeric with
    | none => true
    | some n => decide (n < l)

/-- Python: skip when id_max is set and the numeric part is missing or
above it. -/
def aboveMax (numeric : Option Int) (hi : Option Int) : Bool :=
  match hi with
  | none => false
  | some h => match numeric with
    | none => true
    | some n => decide (h < n)

/-- Source: data_structures_utils.filter_records.  Iterate the cached
index in order, apply the allow-set and the numeric range filters, and
yield the lightweight metadata of the surviving entries. -/
def filter_records (index : List (Str × MetaV)) (ids : Option (List Str))
    (id_min id_max : Option Int) : List (Str × Jv × Jv) :=
  let allowed := allowedOf ids
  index.filterMap (fun p =>
    if passesAllow allowed p.1 && !belowMin (id_to_int p.1) id_min
        && !aboveMax (id_to_int p.1) id_max then
      some (p.1, p.2.2.1, p.2.2.2)
    else none)

/-- The process state seen by load_index: the module-level cache and the
content of the on-disk index file (none when the file does not exist). -/
structure IndexState where
  cache : Option Jv
  disk : Option Str

/-- Source: data_structures_utils.load_index.  Return the cache when set;
otherwise fail if the file is missing, else parse it, fill the cache and
return the parsed mapping. -/
def load_index (st : IndexState) : Except Str (Jv × IndexState) :=
  match st.cache with
  | some m => .ok (m, st)
  | none =>
    match st.disk with
    | none => .error ("Index file not found. Run tools/build_jsonl_index.py.".toList)
    | some content =>
      match jsonParse content with
      | some m => .ok (m, ⟨some m, st.disk⟩)
      | none => .error ("JSONDecodeError".toList)

/-! ## The title index builder (tools/build_title_index.py, main) -/

/-- Python exceptions that the modelled fragments can raise. -/
inductive PyExc where
  | nameError : PyExc
  | unboundLocalError : PyExc
  | attributeError : PyExc
deriving DecidableEq

/-- One manifest module entry: module name and backing file name. -/
structure ModuleEntry where
  module : Str
  file : Str

/-- Source: the per-line body of build_title_index.main.  A line that fails
to parse is skipped (json.JSONDecodeError is caught); a line parsing to a
non-object raises AttributeError on .get (uncaught); a record is appended
when both title and id are truthy. -/
def titleLineStep (modName : Str) (acc : List (Jv × Str × Jv)) (line : Str) :
    Except PyExc (List (Jv × Str × Jv)) :=
  match jsonParse line with
  | none => .ok acc
  | some (.obj fields) =>
    match jGet (.obj fields) kTitle, jGet (.obj fields) kId with
    | some t, some i =>
      if jvTruthy t && jvTruthy i then .ok (acc ++ [(t, modName, i)]) else .ok acc
    | _, _ => .ok acc
  | some _ => .error .attributeError

/-- The inner loop of build_title_index.main over the lines of one module
file. -/
def titleFileFold (modName : Str) : List Str → List (Jv × Str × Jv) →
    Except PyExc (List (Jv × Str × Jv))
  | [], acc => .ok acc
  | line :: rest, acc =>
    match titleLineStep modName acc line with
    | .ok acc2 => titleFileFold modName rest acc2
    | .error e => .error e

/-- The outer loop of build_title_index.main over the manifest modules;
modules whose backing file does not exist are skipped. -/
def titleModsFold (fsys : Str → Option (List Str)) : List ModuleEntry →
    List (Jv × Str × Jv) → Except PyExc (List (Jv × Str × Jv))
  | [], acc => .ok acc
  | m :: rest, acc =>
    match fsys m.file with
    | none => titleModsFold fsys rest acc
    | some lines =>
      match titleFileFold m.module lines acc with
      | .ok acc2 => titleModsFold fsys rest acc2
      | .error e => .error e

/-- Source: build_title_index.main.  For each manifest module whose backing
file exists, stream its lines and collect (title, module, id) tuples in
file-then-module order. -/
def build_title_index (modules : List ModuleEntry) (fsys : Str → Option (List Str)) :
    Except PyExc (List (Jv × Str × Jv)) :=
  titleModsFold fsys modules []

/-! ## The content search tool (tools/data_structures_search.py, main) -/

/-- The literal pattern whose presence routes a matching line into the
id-extraction branch of data_structures_search.main. -/
def idPattern : Str := ['"', 'i', 'd', '"', ':', ' ', '"']

/-- Source: the result-printing loop of data_structures_search.main over
the lines reported by the external search tool.  The variables seen and
count are never initialised in the Python source: the first matching line
that contains an id hits the name seen before any assignment to it
(NameError, since no binding for seen exists anywhere), and a run with no
id-bearing match lines falls through to reading count (UnboundLocalError,
count being a local that is only ever incremented). -/
def searchRun : List Str → Except PyExc Unit
  | [] => .error .unboundLocalError
  | line :: rest =>
    if (findSub idPattern line).isSome then .error .nameError
    else searchRun rest

/-! ## Theorems -/

/-- claim C9: calling filter_records with an empty iterable for ids behaves
identically to passing ids=None: the empty list is falsy in Python, so no
allow-set is built and every index entry (subject only to the range
bounds) is yielded, rather than the empty sequence an empty allow-set
would suggest. -/
theorem c9_empty_ids_like_none (index : List (Str × MetaV)) (id_min id_max : Option Int) :
    filter_records index (some []) id_min id_max
      = filter_records index none id_min id_max := rfl

/-- Auxiliary: a run of the result loop of data_structures_search.main
always raises: NameError at the membership test on the never-assigned
seen as soon as a match line carries an id, UnboundLocalError at the final
zero-match test on the never-initialised count otherwise. -/
theorem searchRun_raises (lines : List Str) :
    searchRun lines
      = .error (if lines.any (fun l => (findSub idPattern l).isSome)
                then PyExc.nameError else PyExc.unboundLocalError) := by
  induction lines with
  | nil => rfl
  | cons line rest ih =>
    by_cases h : (findSub idPattern line).isSome
    · simp [searchRun, h]
    · simp [searchRun, h, ih]

/-- claim C2: the full-content search tool cannot report matches or print
the no-matches message: on an existing corpus every run raises, because
the variables seen and count are read before any assignment (NameError on
the first id-bearing match line, UnboundLocalError on the final count test
otherwise).  The code contradicts its own no-matches printing branch, so
this is a bug in the code rather than in the claim. -/
theorem c2_search_always_raises (lines : List Str) :
    ∃ e : PyExc, searchRun lines = .error e := by
  refine ⟨_, searchRun_raises lines⟩

/-- Auxiliary: a successful load_index call leaves the returned mapping in
the cache. -/
theorem load_index_fills_cache {st : IndexState} {m : Jv} {st1 : IndexState}
    (h : load_index st = .ok (m, st1)) : st1.cache = some m := by
  unfold load_index at h
  split at h
  next heq => cases h; exact heq
  next =>
    split at h
    next => simp at h
    next =>
      split at h
      next => cases h; rfl
      next => simp at h

/-- claim C3: load_index parses the index file at most once per process.
After a first successful call, a second call returns the cached mapping
whatever happened to the on-disk file in between (mutation or deletion),
and leaves the state unchanged. -/
theorem c3_load_index_cached (st : IndexState) (m : Jv) (st1 : IndexState)
    (h : load_index st = .ok (m, st1)) (newDisk : Option Str) :
    load_index ⟨st1.cache, newDisk⟩ = .ok (m, ⟨st1.cache, newDisk⟩) := by
  rw [load_index_fills_cache h]
  rfl

/-- Index file content used by the C3 witness. -/
def c3disk : Str := '\x7b' :: "\"DOC000001\": [0, \"T\", \"p\"]".toList ++ ['\x7d']

/-- The mapping parsed from that file. -/
def c3map : Jv :=
  Jv.obj [(("DOC000001".toList), Jv.arr [Jv.num 0, Jv.str ("T".toList), Jv.str ("p".toList)])]

/-- Witness for C3: a concrete first call reads a well-formed index file;
the second call, after the file was deleted, still returns the parsed
mapping. -/
theorem c3_load_index_cached_witness :
    load_index ⟨some c3map, none⟩ = .ok (c3map, ⟨some c3map, none⟩) :=
  c3_load_index_cached ⟨none, some c3disk⟩ c3map ⟨some c3map, some c3disk⟩ rfl none

/-- An empty metadata value used by concrete filter_records scenarios. -/
def mEmpty : Jv := Jv.str []

/-- The five-entry index DOC000001 .. DOC000005 of the C6 scenario. -/
def idxC6 : List (Str × MetaV) :=
  [(("DOC000001".toList), (0, mEmpty, mEmpty)),
   (("DOC000002".toList), (1, mEmpty, mEmpty)),
   (("DOC000003".toList), (2, mEmpty, mEmpty)),
   (("DOC000004".toList), (3, mEmpty, mEmpty)),
   (("DOC000005".toList), (4, mEmpty, mEmpty))]

/-- A one-entry index whose id has no digits. -/
def idxFOO : List (Str × MetaV) := [(("FOO".toList), (0, mEmpty, mEmpty))]

/-- claim C6: filter_records applies the numeric range inclusively on both
ends and in the claimed way on digitless ids.  First conjunct: the filter
equals the declarative filter that keeps an entry iff it passes the
allow-set and, when its id has a numeric part n, min ≤ n and n ≤ max hold
for whichever bounds are set, while an entry with no numeric part survives
only when neither bound is set (but an allow-set alone does not exclude
it).  Second conjunct: on ids DOC000001..DOC000005, bounds 2 and 4 yield
exactly ids 2, 3 and 4.  Third conjunct: a digitless id in the explicit
allow-set with no range bounds is still yielded. -/
theorem c6_filter_records_range :
    (∀ (index : List (Str × MetaV)) (ids : Option (List Str)) (lo hi : Option Int),
      filter_records index ids lo hi = index.filterMap (fun p =>
        if ((match allowedOf ids with
             | none => true
             | some al => al.isEmpty || decide (p.1 ∈ al))
            &&
            (match id_to_int p.1 with
             | none => decide (lo = none) && decide (hi = none)
             | some n => lo.all (fun l => decide (l ≤ n)) && hi.all (fun h => decide (n ≤ h))))
        then some (p.1, p.2.2.1, p.2.2.2) else none))
    ∧ filter_records idxC6 none (some 2) (some 4)
        = [(("DOC000002".toList), mEmpty, mEmpty),
           (("DOC000003".toList), mEmpty, mEmpty),
           (("DOC000004".toList), mEmpty, mEmpty)]
    ∧ filter_records idxFOO (some [("FOO".toList)]) none none
        = [(("FOO".toList), mEmpty, mEmpty)] := by
  refine ⟨?_, rfl, rfl⟩
  intro index ids lo hi
  unfold filter_records
  have hcond : ∀ p : Str × MetaV, (passesAllow (allowedOf ids) p.1 && !belowMin (id_to_int p.1) lo
      && !aboveMax (id_to_int p.1) hi)
      = ((match allowedOf ids with
          | none => true
          | some al => al.isEmpty || decide (p.1 ∈ al))
         &&
         (match id_to_int p.1 with
          | none => decide (lo = none) && decide (hi = none)
          | some n => lo.all (fun l => decide (l ≤ n)) && hi.all (fun h => decide (n ≤ h)))) := by
    intro p
    have hnl : ∀ a b : Int, (!decide (a < b)) = decide (b ≤ a) := by
      intro a b
      by_cases h : a < b
      · simp [h]
      · simp [h]
        omega
    cases hA : allowedOf ids <;> cases hN : id_to_int p.1 <;> cases lo <;> cases hi <;>
      simp [passesAllow, belowMin, aboveMax, Bool.and_assoc, hnl]
  simp only [hcond]

/-- Build one object line from its inner member text. -/
def mkObjLine (inner : String) : Str := '\x7b' :: inner.toList ++ ['\x7d']

/-- A record line whose title key is present but empty. -/
def lineEmptyTitle : Str := mkObjLine ("\"title\": \"\", \"id\": \"DOC000001\"")

/-- A one-module manifest over a file holding only that record. -/
def manifestC7 : List ModuleEntry := [⟨("M1".toList), ("f.jsonl".toList)⟩]

/-- The file system of the C7 counterexample. -/
def fsysC7 : Str → Option (List Str) :=
  fun n => if n = ("f.jsonl".toList) then some [lineEmptyTitle] else none

/-- Counterexample to claim C7 as stated: a module record with both title
and id keys present (title the empty string) produces no tuple, because
the builder tests Python truthiness, not presence. -/
theorem c7_counterexample :
    build_title_index manifestC7 fsysC7 = .ok []
    ∧ (jsonParse lineEmptyTitle).bind (fun v => jGet v kTitle) = some (.str [])
    ∧ (jsonParse lineEmptyTitle).bind (fun v => jGet v kId)
        = some (.str ("DOC000001".toList)) :=
  ⟨rfl, rfl, rfl⟩

/-- Does this line parse either to an object or not at all?  (Any other
parse result would crash the title builder with AttributeError.) -/
def parsesToObj (line : Str) : Bool :=
  match jsonParse line with
  | some (.obj _) => true
  | some _ => false
  | none => true

/-- Declarative per-line extraction following the specification's words:
the tuple of a record line whose title and id are present and truthy. -/
def titleEntryOf (modName : Str) (line : Str) : Option (Jv × Str × Jv) :=
  match jsonParse line with
  | some (.obj fields) =>
    match jGet (.obj fields) kTitle, jGet (.obj fields) kId with
    | some t, some i => if jvTruthy t && jvTruthy i then some (t, modName, i) else none
    | _, _ => none
  | _ => none

/-- Declarative form of the title index, following the specification: one
tuple per qualifying record, modules in manifest order, records in file
order, missing files skipped, no sorting. -/
def titleIndexSpec (modules : List ModuleEntry) (fsys : Str → Option (List Str)) :
    List (Jv × Str × Jv) :=
  (modules.map (fun m =>
    match fsys m.file with
    | none => []
    | some lines => lines.filterMap (titleEntryOf m.module))).flatten

/-- Auxiliary: on an object-or-unparsable line, one step of the title
builder succeeds and appends exactly the declarative extraction. -/
theorem titleLineStep_eq (modName : Str) (acc : List (Jv × Str × Jv)) (line : Str)
    (h : parsesToObj line = true) :
    titleLineStep modName acc line = .ok (acc ++ (titleEntryOf modName line).toList) := by
  unfold titleLineStep titleEntryOf
  cases hp : jsonParse line with
  | none => simp
  | some v =>
    cases v with
    | obj fields =>
      cases ht : jGet (.obj fields) kTitle with
      | none => cases hi2 : jGet (.obj fields) kId <;> simp [ht, hi2]
      | some t =>
        cases hi2 : jGet (.obj fields) kId with
        | none => simp [ht, hi2]
        | some i =>
          by_cases htr : (jvTruthy t && jvTruthy i) = true <;> simp [ht, hi2, htr]
    | nul => unfold parsesToObj at h; rw [hp] at h; simp at h
    | bool b => unfold parsesToObj at h; rw [hp] at h; simp at h
    | num n => unfold parsesToObj at h; rw [hp] at h; simp at h
    | str s => unfold parsesToObj at h; rw [hp] at h; simp at h
    | arr l => unfold parsesToObj at h; rw [hp] at h; simp at h

/-- Auxiliary: the line fold of the title builder, started from any
accumulator, appends exactly the declarative extraction of its lines. -/
theorem titleFileFold_ok (modName : Str) (lines : List Str)
    (hobj : ∀ line ∈ lines, parsesToObj line = true) (acc : List (Jv × Str × Jv)) :
    titleFileFold modName lines acc
      = .ok (acc ++ lines.filterMap (titleEntryOf modName)) := by
  induction lines generalizing acc with
  | nil => simp [titleFileFold]
  | cons line rest ih =>
    have hline := hobj line (by simp)
    have hrest : ∀ l ∈ rest, parsesToObj l = true := fun l hl => hobj l (by simp [hl])
    rw [titleFileFold, titleLineStep_eq modName acc line hline]
    show titleFileFold modName rest (acc ++ (titleEntryOf modName line).toList)
      = Except.ok (acc ++ List.filterMap (titleEntryOf modName) (line :: rest))
    rw [ih hrest (acc ++ (titleEntryOf modName line).toList)]
    cases hE : titleEntryOf modName line <;> simp [hE, List.filterMap_cons]

/-- claim C7 (amended): for each manifest module whose backing file
exists, and for every record line with truthy (non-empty) title and id,
the builder appends exactly one (title, module, id) tuple, in
file-then-module order with no sorting - provided every line of every
existing module file parses to a JSON object or not at all (a line
parsing to a non-object would raise AttributeError). -/
theorem c7_title_index_order (modules : List ModuleEntry) (fsys : Str → Option (List Str))
    (hobj : ∀ m ∈ modules, ∀ line ∈ ((fsys m.file).getD []), parsesToObj line = true) :
    build_title_index modules fsys = .ok (titleIndexSpec modules fsys) := by
  unfold build_title_index titleIndexSpec
  suffices h : ∀ acc : List (Jv × Str × Jv),
      titleModsFold fsys modules acc
      = .ok (acc ++ (modules.map (fun m =>
          match fsys m.file with
          | none => []
          | some lines => lines.filterMap (titleEntryOf m.module))).flatten) by
    simpa using h []
  induction modules with
  | nil => intro acc; simp [titleModsFold]
  | cons m rest ih =>
    intro acc
    have hm := hobj m (by simp)
    have hrest : ∀ m2 ∈ rest, ∀ line ∈ ((fsys m2.file).getD []), parsesToObj line = true :=
      fun m2 hm2 => hobj m2 (by simp [hm2])
    rw [titleModsFold]
    cases hf : fsys m.file with
    | none =>
      show titleModsFold fsys rest acc = _
      rw [ih hrest acc]
      simp [hf]
    | some lines =>
      rw [hf] at hm
      simp only [Option.getD_some] at hm
      show (match titleFileFold m.module lines acc with
            | Except.ok acc2 => titleModsFold fsys rest acc2
            | Except.error e => Except.error e) = _
      rw [titleFileFold_ok m.module lines hm acc]
      show titleModsFold fsys rest (acc ++ lines.filterMap (titleEntryOf m.module)) = _
      rw [ih hrest (acc ++ lines.filterMap (titleEntryOf m.module))]
      simp [hf]

/-- The two-record module file of the C7 witness. -/
def fsysC7w : Str → Option (List Str) :=
  fun n => if n = ("f.jsonl".toList) then
    some [mkObjLine ("\"title\": \"Alpha\", \"id\": \"DOC000001\""),
          mkObjLine ("\"title\": \"Beta\", \"id\": \"DOC000002\"")]
  else none

/-- Witness for C7: the manifest scenario with one module M1 backed by a
2-record file produces exactly the two (title, M1, id) tuples in file
order. -/
theorem c7_title_index_order_witness :
    build_title_index manifestC7 fsysC7w = .ok (titleIndexSpec manifestC7 fsysC7w) :=
  c7_title_index_order manifestC7 fsysC7w (by decide)

/-! ### Character-class lemmas -/

/-- Auxiliary: Char.ofNat of a valid scalar value has that value. -/
theorem toNat_ofNat_valid (n : Nat) (h : Nat.isValidChar n) : (Char.ofNat n).toNat = n := by
  unfold Char.ofNat
  rw [dif_pos h]
  rfl

/-- Auxiliary: decimal digits are the characters with code 48..57. -/
theorem isDigit_iff_toNat (c : Char) : c.isDigit = true ↔ 48 ≤ c.toNat ∧ c.toNat ≤ 57 := by
  simp only [Char.isDigit, Bool.and_eq_true, decide_eq_true_eq]
  exact Iff.rfl

/-- Auxiliary: upper-casing fixes digits. -/
theorem toUpper_of_digit (c : Char) (h : c.isDigit = true) : c.toUpper = c := by
  rw [isDigit_iff_toNat] at h
  simp only [Char.toUpper]
  rw [if_neg]
  omega

/-- Auxiliary: upper-casing preserves digit-ness. -/
theorem isDigit_toUpper (c : Char) : (c.toUpper).isDigit = c.isDigit := by
  by_cases h : c.isDigit = true
  · rw [toUpper_of_digit c h]
  · simp only [Char.toUpper]
    by_cases hc : c.toNat ≥ 97 ∧ c.toNat ≤ 122
    · rw [if_pos hc]
      have hv : (Char.ofNat (c.toNat - 32)).toNat = c.toNat - 32 :=
        toNat_ofNat_valid _ (Or.inl (by omega))
      have h1 : (Char.ofNat (c.toNat - 32)).isDigit = false := by
        rw [← Bool.not_eq_true, isDigit_iff_toNat, hv]
        omega
      rw [h1]
      simp only [Bool.not_eq_true] at h
      rw [h]
    · rw [if_neg hc]

/-- Auxiliary: whitespace characters are not digits. -/
theorem pyWs_not_digit (c : Char) (h : pyWs c = true) : c.isDigit = false := by
  simp only [pyWs, Bool.or_eq_true, decide_eq_true_eq] at h
  rcases h with ((((h | h) | h) | h) | h) | h <;> subst h <;> decide

/-! ### Invariance of the first digit run under strip and upper-case -/

/-- Auxiliary: dropping a weaker prefix first does not change dropWhile. -/
theorem dropWhile_dropWhile (p q : Char → Bool) (himp : ∀ c, p c = true → q c = true)
    (l : Str) : (l.dropWhile p).dropWhile q = l.dropWhile q := by
  induction l with
  | nil => rfl
  | cons c cs ih =>
    by_cases hp : p c = true
    · rw [List.dropWhile_cons_of_pos hp, List.dropWhile_cons_of_pos (himp c hp), ih]
    · rw [List.dropWhile_cons_of_neg hp]

/-- Auxiliary: the first digit run ignores a stripped whitespace prefix. -/
theorem firstDigitRun_dropWhile_ws (l : Str) :
    firstDigitRun (l.dropWhile pyWs) = firstDigitRun l := by
  unfold firstDigitRun
  rw [dropWhile_dropWhile pyWs (fun c => !c.isDigit)
    (fun c h => by simp [pyWs_not_digit c h]) l]

/-- Auxiliary: takeWhile does not reach into an all-failing suffix. -/
theorem takeWhile_append_none (p : Char → Bool) (x w : Str)
    (hw : ∀ c ∈ w, p c = false) : (x ++ w).takeWhile p = x.takeWhile p := by
  induction x with
  | nil =>
    cases w with
    | nil => rfl
    | cons d ds =>
      simp only [List.nil_append, List.takeWhile_nil]
      rw [List.takeWhile_cons_of_neg]
      simp [hw d (by simp)]
  | cons y ys ih =>
    by_cases hy : p y = true
    · simp only [List.cons_append]
      rw [List.takeWhile_cons_of_pos hy, List.takeWhile_cons_of_pos hy, ih]
    · simp only [List.cons_append]
      rw [List.takeWhile_cons_of_neg hy, List.takeWhile_cons_of_neg hy]

/-- Auxiliary: the first digit run ignores an appended digit-free suffix. -/
theorem firstDigitRun_append_nodigit (a w : Str) (hw : ∀ c ∈ w, c.isDigit = false) :
    firstDigitRun (a ++ w) = firstDigitRun a := by
  unfold firstDigitRun
  rw [List.dropWhile_append]
  cases hd : a.dropWhile (fun c => !c.isDigit) with
  | nil =>
    simp only [hd, List.isEmpty_nil, if_true]
    have hwz : w.dropWhile (fun c => !c.isDigit) = [] := by
      rw [List.dropWhile_eq_nil_iff]
      intro c hc
      simp [hw c hc]
    rw [hwz]
  | cons c cs =>
    simp only [hd, List.isEmpty_cons, Bool.false_eq_true, if_false]
    simp only [List.cons_append]
    have hta : ((c :: cs) ++ w).takeWhile Char.isDigit = (c :: cs).takeWhile Char.isDigit :=
      takeWhile_append_none Char.isDigit (c :: cs) w hw
    simp only [List.cons_append] at hta
    rw [hta]

/-- Auxiliary: every string splits as its right-stripped part plus
whitespace. -/
theorem rstrip_split (a : Str) :
    ∃ w, a = (a.reverse.dropWhile pyWs).reverse ++ w ∧ ∀ c ∈ w, pyWs c = true := by
  refine ⟨(a.reverse.takeWhile pyWs).reverse, ?_, ?_⟩
  · have h := List.takeWhile_append_dropWhile pyWs a.reverse
    have h2 := congrArg List.reverse h
    simp only [List.reverse_append, List.reverse_reverse] at h2
    exact h2.symm
  · intro c hc
    rw [List.mem_reverse] at hc
    exact List.mem_takeWhile_imp hc

/-- Auxiliary: the first digit run is unchanged by Python strip(). -/
theorem firstDigitRun_pyStrip (l : Str) :
    firstDigitRun (pyStrip l) = firstDigitRun l := by
  unfold pyStrip
  obtain ⟨w, hsplit, hws⟩ := rstrip_split (l.dropWhile pyWs)
  calc firstDigitRun ((l.dropWhile pyWs).reverse.dropWhile pyWs).reverse
      = firstDigitRun (((l.dropWhile pyWs).reverse.dropWhile pyWs).reverse ++ w) := by
        rw [firstDigitRun_append_nodigit _ w (fun c hc => pyWs_not_digit c (hws c hc))]
    _ = firstDigitRun (l.dropWhile pyWs) := by rw [← hsplit]
    _ = firstDigitRun l := firstDigitRun_dropWhile_ws l

/-- Auxiliary: the first digit run is unchanged by upper-casing. -/
theorem firstDigitRun_map_toUpper (l : Str) :
    firstDigitRun (l.map Char.toUpper) = firstDigitRun l := by
  unfold firstDigitRun
  rw [List.dropWhile_map]
  have hpred : ((fun c => !c.isDigit) ∘ Char.toUpper) = (fun c => !c.isDigit) := by
    funext c
    simp [Function.comp, isDigit_toUpper]
  rw [hpred]
  cases hd : l.dropWhile (fun c => !c.isDigit) with
  | nil => rfl
  | cons c cs =>
    simp only [List.map_cons]
    rw [← List.map_cons, List.takeWhile_map]
    have hpred2 : (Char.isDigit ∘ Char.toUpper) = Char.isDigit := by
      funext c2
      simp [Function.comp, isDigit_toUpper]
    rw [hpred2]
    congr 1
    have hrun : ∀ x ∈ (c :: cs).takeWhile Char.isDigit, Char.toUpper x = x :=
      fun x hx => toUpper_of_digit x (List.mem_takeWhile_imp hx)
    calc ((c :: cs).takeWhile Char.isDigit).map Char.toUpper
        = ((c :: cs).takeWhile Char.isDigit).map id := List.map_congr_left hrun
      _ = (c :: cs).takeWhile Char.isDigit := List.map_id _

/-! ### Decimal rendering lemmas -/

/-- Auxiliary: the fuelled digit computation agrees with Nat.digits. -/
theorem natDigitsF_eq_digits (fuel n : Nat) (h : n ≤ fuel) :
    natDigitsF fuel n = Nat.digits 10 n := by
  induction fuel generalizing n with
  | zero =>
    interval_cases n
    simp [natDigitsF]
  | succ f ih =>
    cases n with
    | zero => simp [natDigitsF]
    | succ m =>
      rw [natDigitsF, Nat.digits_def' (by norm_num : (1:Nat) < 10) (Nat.succ_pos m)]
      congr 1
      exact ih ((m + 1) / 10) (by
        have := Nat.div_lt_self (Nat.succ_pos m) (by norm_num : (1:Nat) < 10)
        omega)

/-- Auxiliary: numbers below 10^6 render in at most six digits. -/
theorem natRepr_length_le (n : Nat) (h : n < 1000000) : (natRepr n).length ≤ 6 := by
  unfold natRepr
  by_cases h0 : n = 0
  · simp [h0]
  · rw [if_neg h0]
    simp only [List.length_map, List.length_reverse]
    rw [natDigitsF_eq_digits n n (le_refl n)]
    by_contra hlen
    push_neg at hlen
    have hb := Nat.base_pow_length_digits_le 10 n (by norm_num) h0
    have hp : (10:Nat) ^ 7 ≤ 10 ^ (Nat.digits 10 n).length :=
      Nat.pow_le_pow_right (by norm_num) (by omega)
    have h7 : (10:Nat) ^ 7 = 10000000 := by norm_num
    omega

/-- Auxiliary: every character of a decimal rendering is a digit. -/
theorem natRepr_all_digits (n : Nat) : ∀ c ∈ natRepr n, c.isDigit = true := by
  unfold natRepr
  by_cases h0 : n = 0
  · simp [h0]
  · rw [if_neg h0]
    intro c hc
    rw [List.mem_map] at hc
    obtain ⟨d, hd, hcd⟩ := hc
    rw [List.mem_reverse] at hd
    rw [natDigitsF_eq_digits n n (le_refl n)] at hd
    have hd10 : d < 10 := Nat.digits_lt_base (by norm_num) hd
    have hv : (Char.ofNat (48 + d)).toNat = 48 + d :=
      toNat_ofNat_valid _ (Or.inl (by omega))
    rw [← hcd, isDigit_iff_toNat, hv]
    omega

/-- Auxiliary: below 10^6, the 06d format yields exactly six digits. -/
theorem pad6_spec (n : Nat) (h : n < 1000000) :
    (pad6 n).length = 6 ∧ (pad6 n).all Char.isDigit = true := by
  constructor
  · unfold pad6
    have := natRepr_length_le n h
    simp only [List.length_append, List.length_replicate]
    omega
  · unfold pad6
    rw [List.all_append, Bool.and_eq_true]
    refine ⟨?_, ?_⟩
    · rw [List.all_eq_true]
      intro c hc
      rw [List.mem_replicate] at hc
      rw [hc.2]
      decide
    · rw [List.all_eq_true]
      exact natRepr_all_digits n

/-- Counterexample to claim C5 as stated: the input 1234567 contains a
digit, yet normalize_id yields DOC1234567, which does not match the
canonical ^DOC\d6$ shape (the 06d format only pads to a minimum width). -/
theorem c5_counterexample :
    (("1234567".toList).any Char.isDigit) = true
    ∧ isCanonId (normalize_id ("1234567".toList)) = false := by
  constructor
  · decide
  · decide

/-- claim C5 (amended): for every input string containing at least one
digit whose first digit run has numeric value below 10^6, normalize_id
returns DOC followed by exactly six zero-padded digits taken from that
first run. -/
theorem c5_normalize_id_canonical (raw : Str) (ds : Str)
    (hds : firstDigitRun raw = some ds) (hv : digitsVal ds < 1000000) :
    isCanonId (normalize_id raw) = true := by
  unfold normalize_id
  have hclean : firstDigitRun ((pyStrip raw).map Char.toUpper) = some ds := by
    rw [firstDigitRun_map_toUpper, firstDigitRun_pyStrip, hds]
  simp only [hclean]
  have hshape : isCanonId (['D', 'O', 'C'] ++ pad6 (digitsVal ds))
      = ((pad6 (digitsVal ds)).length == 6 && (pad6 (digitsVal ds)).all Char.isDigit) := rfl
  rw [hshape]
  obtain ⟨hlen, hdig⟩ := pad6_spec (digitsVal ds) hv
  rw [hlen, hdig]
  rfl

/-- Witness for C5 (amended): a concrete noisy input with digit value
below 10^6 normalizes to canonical shape. -/
theorem c5_normalize_id_canonical_witness :
    isCanonId (normalize_id ("  doc 18x44 ".toList)) = true :=
  c5_normalize_id_canonical ("  doc 18x44 ".toList) ("18".toList) (by decide) (by decide)

/-- The record behind the C10 counterexample corpus. -/
def rC10 : Record :=
  ⟨("DOC000018".toList), ("T".toList), ("p".toList), ("c".toList)⟩

/-- An index holding the same offset under a non-canonical and a canonical
spelling of the same id, as the builder produces when the corpus itself
contains both spellings (the builder stores corpus ids verbatim). -/
def idxC10 : List (Str × MetaV) :=
  [(("doc000018".toList), (0, mEmpty, mEmpty)),
   (("DOC000018".toList), (0, mEmpty, mEmpty))]

/-- Counterexample to claim C10 as stated: doc000018 is an index key with
normalize_id spelling it differently, yet get_doc does not return None,
because the normalized form DOC000018 happens to be an index key too and
its record is returned instead. -/
theorem c10_counterexample :
    (dictGet idxC10 ("doc000018".toList)).isSome = true
    ∧ normalize_id ("doc000018".toList) ≠ ("doc000018".toList)
    ∧ get_doc idxC10 (encodeRecord rC10) ("doc000018".toList) = some (recordJv rC10) := by
  refine ⟨by decide, by decide, rfl⟩

/-- claim C10 (amended): get_doc looks up only the normalized form of its
argument, so an index key k stored in non-canonical form (normalize_id k
differs from k) is unreachable through get_doc: when the normalized form
is not itself an index key, get_doc k returns None even though k is in the
index; when it is, the entry stored under the normalized key is returned
instead of the one stored under k. -/
theorem c10_get_doc_unreachable (index : List (Str × MetaV)) (corpus : Str) (k : Str)
    (_hk : (dictGet index k).isSome = true) (_hne : normalize_id k ≠ k)
    (hmiss : (dictGet index (normalize_id k)).isSome = false) :
    get_doc index corpus k = none := by
  have hnone : dictGet index (normalize_id k) = none := by
    cases h : dictGet index (normalize_id k) with
    | none => rfl
    | some m => rw [h] at hmiss; simp at hmiss
  unfold get_doc
  simp only [hnone]

/-- Witness for C10 (amended): the one-key index holding only the
non-canonical spelling. -/
theorem c10_get_doc_unreachable_witness :
    get_doc [(("doc000018".toList), (0, mEmpty, mEmpty))] (encodeRecord rC10)
      ("doc000018".toList) = none :=
  c10_get_doc_unreachable [(("doc000018".toList), (0, mEmpty, mEmpty))]
    (encodeRecord rC10) ("doc000018".toList) (by decide) (by decide) (by decide)

/-! ### Builder accounting: offsets and duplicate handling -/

/-- Total length of a list of lines. -/
def sumLen (lines : List Str) : Nat := (lines.map List.length).sum

/-- Each line paired with its starting offset, the first line starting at
the given offset. -/
def withOffsets : List Str → Nat → List (Nat × Str)
  | [], _ => []
  | l :: ls, off => (off, l) :: withOffsets ls (off + l.length)

/-- All (offset, title, rel_path) values that the builder extracts for a
given id, in file order. -/
def metaHits (lines : List Str) (id : Str) : List MetaV :=
  (withOffsets lines 0).filterMap (fun ol =>
    match lineMeta ol.2 with
    | some (i, t, p) => if i = id then some (ol.1, t, p) else none
    | none => none)

/-- Auxiliary: looking up the inserted key. -/
theorem dictGet_insert_self (d : List (Str × α)) (k : Str) (v : α) :
    dictGet (dictInsert d k v) k = some v := by
  unfold dictInsert
  split
  next hany =>
    induction d with
    | nil => simp at hany
    | cons p ps ih =>
      rw [List.map_cons]
      by_cases hp : p.1 = k
      · rw [if_pos hp]
        unfold dictGet
        rw [List.find?_cons_of_pos _ (by simp)]
        rfl
      · rw [if_neg hp]
        unfold dictGet
        rw [List.find?_cons_of_neg _ (by simp [hp])]
        rw [List.any_cons, decide_eq_false hp, Bool.false_or] at hany
        exact ih hany
  next hany =>
    unfold dictGet
    rw [List.find?_append]
    have hnone : List.find? (fun p => decide (p.1 = k)) d = none := by
      rw [List.find?_eq_none]
      rw [Bool.not_eq_true] at hany
      exact List.any_eq_false.mp hany
    rw [hnone, Option.none_or, List.find?_cons_of_pos _ (by simp)]
    rfl

/-- Auxiliary: looking up another key after an insertion. -/
theorem dictGet_insert_other (d : List (Str × α)) (k k2 : Str) (v : α) (hne : k2 ≠ k) :
    dictGet (dictInsert d k v) k2 = dictGet d k2 := by
  have hback : decide (k = k2) = false := decide_eq_false (fun h => hne h.symm)
  unfold dictInsert
  split
  next hany =>
    clear hany
    unfold dictGet
    induction d with
    | nil => rfl
    | cons p ps ih =>
      rw [List.map_cons]
      by_cases hp : p.1 = k
      · rw [if_pos hp]
        rw [List.find?_cons_of_neg _ (by simp only [decide_eq_true_eq]; exact fun h => hne h.symm)]
        rw [List.find?_cons_of_neg _ (by rw [hp]; simp only [decide_eq_true_eq]; exact fun h => hne h.symm)]
        exact ih
      · rw [if_neg hp]
        by_cases hp2 : p.1 = k2
        · rw [List.find?_cons_of_pos _ (by simp [hp2]),
            List.find?_cons_of_pos _ (by simp [hp2])]
        · rw [List.find?_cons_of_neg _ (by simp [hp2]),
            List.find?_cons_of_neg _ (by simp [hp2])]
          exact ih
  next hany =>
    unfold dictGet
    rw [List.find?_append]
    have h2 : List.find? (fun p => decide (p.1 = k2)) [(k, v)] = none := by
      rw [List.find?_eq_none]
      intro x hx
      rw [List.mem_singleton] at hx
      subst hx
      simp only [decide_eq_true_eq]
      exact fun h => hne h.symm
    rw [h2, Option.or_none]

/-- Auxiliary: insertion preserves distinctness of the index keys. -/
theorem dictInsert_nodup (d : List (Str × α)) (k : Str) (v : α)
    (hnd : (d.map Prod.fst).Nodup) : ((dictInsert d k v).map Prod.fst).Nodup := by
  unfold dictInsert
  split
  next hany =>
    have hkeys : (d.map (fun p => if p.1 = k then (k, v) else p)).map Prod.fst
        = d.map Prod.fst := by
      rw [List.map_map]
      apply List.map_congr_left
      intro p hp
      by_cases h : p.1 = k
      · simp [h]
      · simp [h]
    rw [hkeys]
    exact hnd
  next hany =>
    rw [Bool.not_eq_true] at hany
    have hnotin : k ∉ d.map Prod.fst := by
      intro hmem
      rw [List.mem_map] at hmem
      obtain ⟨p, hp, hpk⟩ := hmem
      have := List.any_eq_false.mp hany p hp
      simp [hpk] at this
    rw [List.map_append]
    rw [List.nodup_append]
    refine ⟨hnd, List.nodup_singleton k, ?_⟩
    intro x hx
    simp only [List.map_cons, List.map_nil, List.mem_singleton]
    intro hxk
    exact hnotin (hxk ▸ hx)

/-- Auxiliary: the running offset after any lines is the starting offset
plus the total length of the lines, no matter what the lines hold. -/
theorem foldl_buildStep_offset (lines : List Str) (st : Nat × List (Str × MetaV)) :
    (lines.foldl buildStep st).1 = st.1 + sumLen lines := by
  induction lines generalizing st with
  | nil => simp [sumLen]
  | cons l ls ih =>
    rw [List.foldl_cons, ih]
    unfold buildStep
    simp only [sumLen, List.map_cons, List.sum_cons]
    omega

/-- Auxiliary: the built index always has distinct keys. -/
theorem foldl_buildStep_nodup (lines : List Str) (st : Nat × List (Str × MetaV))
    (hnd : (st.2.map Prod.fst).Nodup) :
    (((lines.foldl buildStep st).2).map Prod.fst).Nodup := by
  induction lines generalizing st with
  | nil => exact hnd
  | cons l ls ih =>
    rw [List.foldl_cons]
    apply ih
    unfold buildStep
    cases hm : lineMeta l with
    | none => exact hnd
    | some m => exact dictInsert_nodup st.2 m.1 (st.1, m.2.1, m.2.2) hnd

/-- Auxiliary: offsets of an extended line list. -/
theorem withOffsets_append (a : List Str) (l : Str) (n : Nat) :
    withOffsets (a ++ [l]) n = withOffsets a n ++ [(n + sumLen a, l)] := by
  induction a generalizing n with
  | nil =>
    simp [withOffsets, sumLen]
  | cons x xs ih =>
    rw [List.cons_append, withOffsets, withOffsets, ih (n + x.length), List.cons_append]
    have heq : n + x.length + sumLen xs = n + sumLen (x :: xs) := by
      simp only [sumLen, List.map_cons, List.sum_cons]
      omega
    rw [heq]

/-- Auxiliary: the built index maps an id to the offset and metadata of
the last line whose extraction produced that id. -/
theorem build_lookup_eq (lines : List Str) (id : Str) :
    dictGet (buildFromLines lines) id = (metaHits lines id).getLast? := by
  induction lines using List.reverseRecOn with
  | nil => rfl
  | append_singleton ls l ih =>
    unfold buildFromLines at ih ⊢
    rw [List.foldl_append, List.foldl_cons, List.foldl_nil]
    unfold metaHits at ih ⊢
    rw [withOffsets_append, List.filterMap_append]
    have hoff : (List.foldl buildStep (0, ([] : List (Str × MetaV))) ls).1 = sumLen ls := by
      rw [foldl_buildStep_offset]
      simp
    cases hm : lineMeta l with
    | none =>
      have hstep : (buildStep (List.foldl buildStep (0, ([] : List (Str × MetaV))) ls) l).2
          = (List.foldl buildStep (0, ([] : List (Str × MetaV))) ls).2 := by
        unfold buildStep
        rw [hm]
      rw [hstep]
      simp only [hm, List.filterMap_cons, List.filterMap_nil, List.append_nil]
      exact ih
    | some m =>
      obtain ⟨i, t, p⟩ := m
      have hstep : (buildStep (List.foldl buildStep (0, ([] : List (Str × MetaV))) ls) l).2
          = dictInsert (List.foldl buildStep (0, ([] : List (Str × MetaV))) ls).2 i
              ((List.foldl buildStep (0, ([] : List (Str × MetaV))) ls).1, t, p) := by
        unfold buildStep
        rw [hm]
      rw [hstep, hoff]
      by_cases hid : i = id
      · subst hid
        rw [dictGet_insert_self]
        simp [hm, List.getLast?_concat]
      · simp only [hm, List.filterMap_cons, List.filterMap_nil, if_neg hid, List.append_nil]
        rw [dictGet_insert_other _ _ _ _ (fun h => hid h.symm)]
        exact ih

/-- Auxiliary: membership in the offset-annotated line list locates the
line and its starting offset. -/
theorem withOffsets_mem (lines : List Str) (n : Nat) (o : Nat) (l : Str)
    (h : (o, l) ∈ withOffsets lines n) :
    ∃ pre post, lines = pre ++ l :: post ∧ o = n + sumLen pre := by
  induction lines generalizing n with
  | nil => simp [withOffsets] at h
  | cons x xs ih =>
    rw [withOffsets, List.mem_cons] at h
    cases h with
    | inl h0 =>
      rw [Prod.mk.injEq] at h0
      refine ⟨[], xs, by rw [h0.2]; rfl, ?_⟩
      simp [sumLen, h0.1]
    | inr h1 =>
      obtain ⟨pre, post, hsplit, hoff⟩ := ih (n + x.length) h1
      refine ⟨x :: pre, post, by rw [List.cons_append, hsplit], ?_⟩
      rw [hoff]
      simp only [sumLen, List.map_cons, List.sum_cons]
      omega

/-- A corpus line whose content field precedes its id field. -/
def lineContentFirst : Str :=
  mkObjLine ("\"content\": \"x\", \"id\": \"DOC000042\"") ++ ['\n']

/-- Counterexample to claim C8 as stated: a line that parses as JSON and
carries the id DOC000042 produces no index entry at all, because the
content marker sits at index 1 and the slice before it (just the opening
brace) parses to an empty object with no id. -/
theorem c8_counterexample :
    (jsonParse lineContentFirst).isSome = true
    ∧ (jsonParse lineContentFirst).bind (fun v => jGet v kId)
        = some (.str ("DOC000042".toList))
    ∧ dictGet (buildFromLines [lineContentFirst]) ("DOC000042".toList) = none :=
  ⟨rfl, rfl, rfl⟩

/-- claim C8 (amended): the built index has exactly one entry per distinct
id that the builder's metadata pass extracts (from the pre-content slice
when the marker is found at a positive index, from the whole line
otherwise), and that entry carries the offset, title and rel_path of the
last line in file order whose extraction produced the id.  (A parsable
line whose id the metadata pass misses - e.g. a record whose content field
precedes its id - contributes no entry.) -/
theorem c8_duplicate_ids_last_wins (lines : List Str) (id : Str) :
    ((buildFromLines lines).map Prod.fst).Nodup
    ∧ dictGet (buildFromLines lines) id = (metaHits lines id).getLast? :=
  ⟨foldl_buildStep_nodup lines (0, []) (by simp), build_lookup_eq lines id⟩

/-- claim C4: after processing each line the running offset equals the sum
of the lengths of the lines processed so far - also across skipped
unparsable lines, since the offset advances unconditionally - and every
index entry maps its id to the exact starting offset of the line it was
extracted from. -/
theorem c4_offset_accounting (lines : List Str) :
    (∀ k : Nat, ((lines.take k).foldl buildStep (0, [])).1 = sumLen (lines.take k))
    ∧ (∀ id off t p, dictGet (buildFromLines lines) id = some (off, t, p) →
        ∃ pre line post, lines = pre ++ line :: post ∧ off = sumLen pre
          ∧ lineMeta line = some (id, t, p)) := by
  constructor
  · intro k
    rw [foldl_buildStep_offset]
    simp
  · intro id off t p h
    rw [build_lookup_eq] at h
    have hmem : (off, t, p) ∈ metaHits lines id := List.mem_of_mem_getLast? h
    unfold metaHits at hmem
    rw [List.mem_filterMap] at hmem
    obtain ⟨⟨o, l⟩, hol, hf⟩ := hmem
    cases hlm : lineMeta l with
    | none => rw [hlm] at hf; cases hf
    | some m =>
      obtain ⟨i, t2, p2⟩ := m
      rw [hlm] at hf
      have hf2 : (if i = id then some (o, t2, p2) else none) = some (off, t, p) := hf
      by_cases hi : i = id
      · rw [if_pos hi] at hf2
        rw [Option.some_inj, Prod.mk.injEq, Prod.mk.injEq] at hf2
        obtain ⟨ho, ht, hp⟩ := hf2
        obtain ⟨pre, post, hsplit, hoff⟩ := withOffsets_mem lines 0 o l hol
        refine ⟨pre, l, post, hsplit, ?_, ?_⟩
        · omega
        · rw [hlm, hi, ht, hp]
      · rw [if_neg hi] at hf2
        cases hf2

/-- The second well-formed record of the C4 witness corpus. -/
def rC4w : Record :=
  ⟨("DOC000002".toList), ("U".toList), ("q".toList), ("c".toList)⟩

/-- Witness for C4: the index built over two well-formed lines separated
by a malformed one maps DOC000002 to the exact start of its line. -/
theorem c4_offset_accounting_witness :
    ∃ pre line post,
      [encodeRecord rC10, ("oops\n".toList), encodeRecord rC4w]
        = pre ++ line :: post
      ∧ 72 = sumLen pre
      ∧ lineMeta line = some (("DOC000002".toList), .str ("U".toList), .str ("q".toList)) :=
  (c4_offset_accounting [encodeRecord rC10, ("oops\n".toList), encodeRecord rC4w]).2
    ("DOC000002".toList) 72 (.str ("U".toList)) (.str ("q".toList)) rfl

/-! ### Parser round-trip lemmas -/

/-- Auxiliary: skipping whitespace stops at a non-whitespace head. -/
theorem skipWs_cons_not (c : Char) (s : Str) (h : jWs c = false) : skipWs (c :: s) = c :: s := by
  unfold skipWs
  rw [List.dropWhile_cons_of_neg]
  simp [h]

/-- Auxiliary: skipping whitespace eats a leading space. -/
theorem skipWs_space (s : Str) : skipWs (' ' :: s) = skipWs s := by
  unfold skipWs
  rw [List.dropWhile_cons_of_pos]
  decide

/-- Auxiliary: the three shapes an escaped character can take. -/
theorem eChar_cases (c : Char) :
    (eChar c = [c] ∧ c ≠ '"' ∧ c ≠ '\\' ∧ 32 ≤ c.toNat)
    ∨ (∃ e, eChar c = ['\\', e] ∧ escMap e = some c ∧ e ≠ 'u')
    ∨ (eChar c = ['\\', 'u', '0', '0', hexDigitChar (c.toNat / 16), hexDigitChar (c.toNat % 16)]
        ∧ c.toNat < 32) := by
  unfold eChar
  by_cases h1 : c = '"'
  · subst h1
    refine Or.inr (Or.inl ⟨'"', ?_, by decide, by decide⟩)
    simp
  · rw [if_neg h1]
    by_cases h2 : c = '\\'
    · subst h2
      refine Or.inr (Or.inl ⟨'\\', ?_, by decide, by decide⟩)
      simp
    · rw [if_neg h2]
      by_cases h3 : c = '\n'
      · subst h3
        refine Or.inr (Or.inl ⟨'n', ?_, by decide, by decide⟩)
        simp
      · rw [if_neg h3]
        by_cases h4 : c = '\r'
        · subst h4
          refine Or.inr (Or.inl ⟨'r', ?_, by decide, by decide⟩)
          simp
        · rw [if_neg h4]
          by_cases h5 : c = '\t'
          · subst h5
            refine Or.inr (Or.inl ⟨'t', ?_, by decide, by decide⟩)
            simp
          · rw [if_neg h5]
            by_cases h6 : c = '\x08'
            · subst h6
              refine Or.inr (Or.inl ⟨'b', ?_, by decide, by decide⟩)
              simp
            · rw [if_neg h6]
              by_cases h7 : c = '\x0c'
              · subst h7
                refine Or.inr (Or.inl ⟨'f', ?_, by decide, by decide⟩)
                simp
              · rw [if_neg h7]
                by_cases h8 : c.toNat < 32
                · rw [if_pos h8]
                  exact Or.inr (Or.inr ⟨rfl, h8⟩)
                · rw [if_neg h8]
                  refine Or.inl ⟨rfl, h1, h2, by omega⟩

/-- Auxiliary: the string parser at a closing quote. -/
theorem pstr_close (t : Str) (g : Nat) : pstr (g + 1) ('"' :: t) = some ([], t) := by
  simp [pstr]

/-- Auxiliary: the string parser consumes one plain character. -/
theorem pstr_step_plain (c : Char) (rest : Str) (g : Nat)
    (h1 : c ≠ '"') (h2 : c ≠ '\\') (h3 : 32 ≤ c.toNat) :
    pstr (g + 1) (c :: rest) = (pstr g rest).map (fun p => (c :: p.1, p.2)) := by
  simp only [pstr]
  rw [if_neg h1, if_neg h2, if_neg (by omega : ¬ c.toNat < 32)]

/-- Auxiliary: the string parser decodes a two-character escape. -/
theorem pstr_step_esc (e ec : Char) (rest : Str) (g : Nat)
    (hmap : escMap e = some ec) (hu : e ≠ 'u') :
    pstr (g + 1) ('\\' :: e :: rest) = (pstr g rest).map (fun p => (ec :: p.1, p.2)) := by
  simp only [pstr]
  rw [if_neg (by decide : ¬ ('\\' : Char) = '"'), if_true, if_neg hu, hmap]

/-- Auxiliary: hexadecimal digit characters decode to their value. -/
theorem hexVal_hexDigitChar (k : Nat) (hk : k < 16) : hexVal (hexDigitChar k) = some k := by
  interval_cases k <;> decide

/-- Auxiliary: the string parser decodes a \u00XX escape. -/
theorem pstr_step_u (n : Nat) (rest : Str) (g : Nat) (hn : n < 32) :
    pstr (g + 1) ('\\' :: 'u' :: '0' :: '0' :: hexDigitChar (n / 16) :: hexDigitChar (n % 16) :: rest)
      = (pstr g rest).map (fun p => (Char.ofNat n :: p.1, p.2)) := by
  simp only [pstr]
  rw [if_neg (by decide : ¬ ('\\' : Char) = '"'), if_true, if_true]
  simp only [show hexVal '0' = some 0 from rfl,
    hexVal_hexDigitChar (n / 16) (by omega : n / 16 < 16),
    hexVal_hexDigitChar (n % 16) (by omega : n % 16 < 16)]
  have hv : 4096 * 0 + 256 * 0 + 16 * (n / 16) + n % 16 = n := by omega
  simp only [hv]
  rw [if_pos (by omega : n < 55296)]

/-- Auxiliary: the string parser inverts the escaping of a whole string. -/
theorem pstr_eStr (v : Str) : ∀ (t : Str) (f : Nat), (eStr v ++ '"' :: t).length + 2 ≤ f →
    pstr f (eStr v ++ '"' :: t) = some (v, t) := by
  induction v with
  | nil =>
    intro t f hf
    obtain ⟨g, rfl⟩ : ∃ g, f = g + 1 := ⟨f - 1, by omega⟩
    simp [eStr, pstr]
  | cons c v' ih =>
    intro t f hf
    obtain ⟨g, rfl⟩ : ∃ g, f = g + 1 := ⟨f - 1, by omega⟩
    rw [show eStr (c :: v') = eChar c ++ eStr v' from rfl] at hf ⊢
    rcases eChar_cases c with ⟨hec, hq, hb, h32⟩ | ⟨e, hec, hmap, hu⟩ | ⟨hec, h32⟩
    · rw [hec] at hf ⊢
      simp only [List.cons_append, List.nil_append, List.append_assoc] at hf ⊢
      rw [pstr_step_plain c _ g hq hb h32]
      rw [ih t g (by simp only [List.length_append, List.length_cons] at hf ⊢; omega)]
      rfl
    · rw [hec] at hf ⊢
      simp only [List.cons_append, List.nil_append, List.append_assoc] at hf ⊢
      rw [pstr_step_esc e c _ g hmap hu]
      rw [ih t g (by simp only [List.length_append, List.length_cons] at hf ⊢; omega)]
      rfl
    · rw [hec] at hf ⊢
      simp only [List.cons_append, List.nil_append, List.append_assoc] at hf ⊢
      rw [pstr_step_u c.toNat _ g h32]
      rw [ih t g (by simp only [List.length_append, List.length_cons] at hf ⊢; omega)]
      rw [Char.ofNat_toNat]
      rfl

/-- Auxiliary: plain strings escape to themselves. -/
theorem eStr_plain (k : Str) (hk : ∀ c ∈ k, eChar c = [c]) : eStr k = k := by
  induction k with
  | nil => rfl
  | cons c cs ih =>
    rw [show eStr (c :: cs) = eChar c ++ eStr cs from rfl]
    rw [hk c (by simp), ih (fun c2 h2 => hk c2 (by simp [h2]))]
    rfl

/-- Auxiliary: the value parser on a string value. -/
theorem pval_step_str (X : Str) (g : Nat) :
    pval (g + 1) ('"' :: X) = (pstr g X).map (fun p => (Jv.str p.1, p.2)) := by
  simp [pval, skipWs_cons_not _ _ (by decide : jWs '"' = false)]

/-- Auxiliary: the value parser on a space-led string value. -/
theorem pval_str_sp (v t : Str) (g : Nat)
    (hf : (' ' :: '"' :: (eStr v ++ '"' :: t)).length + 2 ≤ g) :
    pval g (' ' :: '"' :: (eStr v ++ '"' :: t)) = some (Jv.str v, t) := by
  obtain ⟨g2, rfl⟩ : ∃ g2, g = g2 + 1 := ⟨g - 1, by omega⟩
  have hskip : skipWs (' ' :: '"' :: (eStr v ++ '"' :: t)) = '"' :: (eStr v ++ '"' :: t) := by
    rw [skipWs_space, skipWs_cons_not _ _ (by decide)]
  simp only [pval, hskip]
  rw [if_true]
  rw [pstr_eStr v t g2 (by simp only [List.length_cons] at hf; omega)]
  rfl

/-- Auxiliary: the member parser consumes one serialized string field and
hands the separator decision back. -/
theorem pmembers_field (k v s2 : Str) (g : Nat)
    (hk : ∀ c ∈ k, eChar c = [c])
    (hlen : (encodeField k v ++ s2).length + 2 ≤ g + 1) :
    pmembers (g + 1) (encodeField k v ++ s2)
      = (match skipWs s2 with
         | [] => none
         | c3 :: r4 =>
           if c3 = ',' then (pmembers g r4).map (fun p => ((k, Jv.str v) :: p.1, p.2))
           else if c3 = '}' then some ([(k, Jv.str v)], r4)
           else none) := by
  have hshape : encodeField k v ++ s2
      = '"' :: (eStr k ++ '"' :: (':' :: ' ' :: '"' :: (eStr v ++ '"' :: s2))) := by
    rw [eStr_plain k hk]
    unfold encodeField
    simp [List.append_assoc]
  rw [hshape] at hlen ⊢
  simp only [pmembers]
  rw [skipWs_cons_not _ _ (by decide : jWs '"' = false)]
  show (match pstr g (eStr k ++ '"' :: (':' :: ' ' :: '"' :: (eStr v ++ '"' :: s2))) with
    | none => none
    | some kr =>
      match skipWs kr.2 with
      | [] => none
      | c2 :: r2 =>
        if c2 = ':' then
          match pval g r2 with
          | none => none
          | some vr =>
            match skipWs vr.2 with
            | [] => none
            | c3 :: r4 =>
              if c3 = ',' then Option.map (fun p : List (Str × Jv) × Str => ((kr.1, vr.1) :: p.1, p.2)) (pmembers g r4)
              else if c3 = '}' then some ([(kr.1, vr.1)], r4) else none
        else none) = _
  rw [pstr_eStr k (':' :: ' ' :: '"' :: (eStr v ++ '"' :: s2)) g
    (by simp only [List.length_cons, List.length_append] at hlen ⊢; omega)]
  show (match skipWs (':' :: ' ' :: '"' :: (eStr v ++ '"' :: s2)) with
    | [] => none
    | c2 :: r2 =>
      if c2 = ':' then
        match pval g r2 with
        | none => none
        | some vr =>
          match skipWs vr.2 with
          | [] => none
          | c3 :: r4 =>
            if c3 = ',' then Option.map (fun p : List (Str × Jv) × Str => ((k, vr.1) :: p.1, p.2)) (pmembers g r4)
            else if c3 = '}' then some ([(k, vr.1)], r4) else none
      else none) = _
  rw [skipWs_cons_not _ _ (by decide : jWs ':' = false)]
  show (match pval g (' ' :: '"' :: (eStr v ++ '"' :: s2)) with
    | none => none
    | some vr =>
      match skipWs vr.2 with
      | [] => none
      | c3 :: r4 =>
        if c3 = ',' then Option.map (fun p : List (Str × Jv) × Str => ((k, vr.1) :: p.1, p.2)) (pmembers g r4)
        else if c3 = '}' then some ([(k, vr.1)], r4) else none) = _
  rw [pval_str_sp v s2 g
    (by simp only [List.length_cons, List.length_append] at hlen ⊢; omega)]

/-- Auxiliary: the member parser ignores one leading space. -/
theorem pmembers_space (g : Nat) (X : Str) : pmembers (g + 1) (' ' :: X) = pmembers (g + 1) X := by
  simp only [pmembers, skipWs_space]

/-- Auxiliary: a serialized field list has length at least six per field. -/
theorem encodeField_len (k v : Str) : 6 ≤ (encodeField k v).length := by
  unfold encodeField
  simp only [List.length_cons, List.length_append]
  omega

/-- Auxiliary: the member parser inverts the serialization of a non-empty
list of string fields. -/
theorem pmembers_encodeFields (fs : List (Str × Str)) :
    ∀ (t : Str) (f : Nat), fs ≠ [] →
      (∀ kv ∈ fs, ∀ c ∈ kv.1, eChar c = [c]) →
      (encodeFields fs ++ '}' :: t).length + 2 ≤ f →
      pmembers f (encodeFields fs ++ '}' :: t)
        = some (fs.map (fun kv => (kv.1, Jv.str kv.2)), t) := by
  induction fs with
  | nil =>
    intro t f hne _ _
    cases hne rfl
  | cons kv rest ih =>
    intro t f _ hk hf
    obtain ⟨g, rfl⟩ : ∃ g, f = g + 1 := ⟨f - 1, by omega⟩
    cases rest with
    | nil =>
      rw [show encodeFields [kv] = encodeField kv.1 kv.2 from rfl] at hf ⊢
      rw [pmembers_field kv.1 kv.2 ('}' :: t) g (hk kv (by simp)) hf]
      rw [skipWs_cons_not _ _ (by decide : jWs '}' = false)]
      show (if ('}' : Char) = ',' then
              (pmembers g t).map (fun p => ((kv.1, Jv.str kv.2) :: p.1, p.2))
            else if ('}' : Char) = '}' then some ([(kv.1, Jv.str kv.2)], t) else none)
          = some ([kv].map (fun kv => (kv.1, Jv.str kv.2)), t)
      rw [if_neg (by decide), if_pos rfl]
      rfl
    | cons kv2 rest2 =>
      rw [show encodeFields (kv :: kv2 :: rest2)
          = encodeField kv.1 kv.2 ++ ',' :: ' ' :: encodeFields (kv2 :: rest2) from rfl] at hf ⊢
      have hassoc : (encodeField kv.1 kv.2 ++ ',' :: ' ' :: encodeFields (kv2 :: rest2)) ++ '}' :: t
          = encodeField kv.1 kv.2 ++ (',' :: ' ' :: (encodeFields (kv2 :: rest2) ++ '}' :: t)) := by
        simp [List.append_assoc]
      rw [hassoc] at hf ⊢
      rw [pmembers_field kv.1 kv.2 _ g (hk kv (by simp))
        (by simp only [List.length_append, List.length_cons] at hf ⊢; omega)]
      rw [skipWs_cons_not _ _ (by decide : jWs ',' = false)]
      show (if (',' : Char) = ',' then
              (pmembers g (' ' :: (encodeFields (kv2 :: rest2) ++ '}' :: t))).map
                (fun p => ((kv.1, Jv.str kv.2) :: p.1, p.2))
            else if (',' : Char) = '}' then
              some ([(kv.1, Jv.str kv.2)], ' ' :: (encodeFields (kv2 :: rest2) ++ '}' :: t))
            else none)
          = some ((kv :: kv2 :: rest2).map (fun kv => (kv.1, Jv.str kv.2)), t)
      rw [if_pos rfl]
      have h6 := encodeField_len kv.1 kv.2
      obtain ⟨g2, rfl⟩ : ∃ g2, g = g2 + 1 :=
        ⟨g - 1, by simp only [List.length_append, List.length_cons] at hf; omega⟩
      rw [pmembers_space g2 (encodeFields (kv2 :: rest2) ++ '}' :: t)]
      rw [ih t (g2 + 1) (by simp) (fun kv3 h3 => hk kv3 (by simp [h3]))
        (by simp only [List.length_append, List.length_cons] at hf ⊢; omega)]
      rfl

/-- Auxiliary: the value parser inverts the serialization of a non-empty
object of string fields. -/
theorem pval_obj_fields (fs : List (Str × Str)) (t : Str) (f : Nat)
    (hne : fs ≠ [])
    (hk : ∀ kv ∈ fs, ∀ c ∈ kv.1, eChar c = [c])
    (hf : ('{' :: (encodeFields fs ++ '}' :: t)).length + 2 ≤ f) :
    pval f ('{' :: (encodeFields fs ++ '}' :: t))
      = some (Jv.obj (fs.map (fun kv => (kv.1, Jv.str kv.2))), t) := by
  obtain ⟨g, rfl⟩ : ∃ g, f = g + 1 := ⟨f - 1, by omega⟩
  obtain ⟨Y, hY⟩ : ∃ Y, encodeFields fs ++ '}' :: t = '"' :: Y := by
    cases fs with
    | nil => cases hne rfl
    | cons kv rest =>
      cases rest with
      | nil => exact ⟨_, rfl⟩
      | cons kv2 rest2 => exact ⟨_, rfl⟩
  simp only [pval]
  rw [skipWs_cons_not _ _ (by decide : jWs '{' = false)]
  show (if ('{' : Char) = '{' then
          match skipWs (encodeFields fs ++ '}' :: t) with
          | [] => none
          | c2 :: r2 =>
            if c2 = '}' then some (Jv.obj [], r2)
            else Option.map (fun p : List (Str × Jv) × Str => (Jv.obj p.1, p.2))
              (pmembers g (encodeFields fs ++ '}' :: t))
        else if ('{' : Char) = '[' then
          match skipWs (encodeFields fs ++ '}' :: t) with
          | [] => none
          | c2 :: r2 =>
            if c2 = ']' then some (Jv.arr [], r2)
            else Option.map (fun p : List Jv × Str => (Jv.arr p.1, p.2))
              (pitems g (encodeFields fs ++ '}' :: t))
        else none) = _
  rw [if_pos rfl]
  rw [hY, skipWs_cons_not _ _ (by decide : jWs '"' = false)]
  show (if ('"' : Char) = '}' then some (Jv.obj [], Y)
        else Option.map (fun p : List (Str × Jv) × Str => (Jv.obj p.1, p.2))
          (pmembers g ('"' :: Y))) = _
  rw [if_neg (by decide), ← hY]
  rw [pmembers_encodeFields fs t g hne hk
    (by simp only [List.length_cons] at hf; omega)]
  rfl

/-- Auxiliary: json.loads inverts the serialization of a non-empty object
of string fields followed by trailing whitespace. -/
theorem jsonParse_obj_fields (fs : List (Str × Str)) (t : Str)
    (hne : fs ≠ [])
    (hk : ∀ kv ∈ fs, ∀ c ∈ kv.1, eChar c = [c])
    (ht : skipWs t = []) :
    jsonParse ('{' :: (encodeFields fs ++ '}' :: t))
      = some (Jv.obj (fs.map (fun kv => (kv.1, Jv.str kv.2)))) := by
  unfold jsonParse
  rw [pval_obj_fields fs t (('{' :: (encodeFields fs ++ '}' :: t)).length + 2) hne hk (le_refl _)]
  show (if skipWs t = [] then some (Jv.obj (fs.map (fun kv => (kv.1, Jv.str kv.2)))) else none) = _
  rw [if_pos ht]

/-! ### Where the content marker can occur in an encoded line -/

/-- Auxiliary: peeling a plain-character pattern off an escaped string:
either the pattern is an initial segment of the source string, or the
source is exhausted within the pattern and the rest of the pattern
continues into the trailing text. -/
theorem peel_plain (w : Str) (hw : ∀ c ∈ w, eChar c = [c]) :
    ∀ (s suf t : Str), (w ++ suf) <+: (eStr s ++ t) →
      (∃ s2, s = w ++ s2 ∧ suf <+: (eStr s2 ++ t))
      ∨ (∃ w1 w2, w = w1 ++ w2 ∧ s = w1 ∧ (w2 ++ suf) <+: t) := by
  induction w with
  | nil =>
    intro s suf t h
    exact Or.inl ⟨s, rfl, by simpa using h⟩
  | cons a w' ih =>
    intro s suf t h
    cases s with
    | nil =>
      right
      exact ⟨[], a :: w', rfl, rfl, by simpa using h⟩
    | cons c s1 =>
      rw [show eStr (c :: s1) = eChar c ++ eStr s1 from rfl] at h
      rcases eChar_cases c with ⟨hec, _, _, _⟩ | ⟨e, hec, _, _⟩ | ⟨hec, _⟩
      · rw [hec] at h
        simp only [List.cons_append, List.nil_append, List.append_assoc] at h
        obtain ⟨hac, h2⟩ := List.cons_prefix_cons.mp h
        subst hac
        rcases ih (fun c2 hc2 => hw c2 (by simp [hc2])) s1 suf t h2 with
          ⟨s2, hs, hsuf⟩ | ⟨w1, w2, hw12, hs, hpre⟩
        · exact Or.inl ⟨s2, by rw [hs]; rfl, hsuf⟩
        · exact Or.inr ⟨a :: w1, w2, by rw [hw12, List.cons_append], by rw [hs], hpre⟩
      · rw [hec] at h
        simp only [List.cons_append, List.nil_append, List.append_assoc] at h
        have ha : a = '\\' := (List.cons_prefix_cons.mp h).1
        have hpl := hw a (by simp)
        rw [ha] at hpl
        exact absurd hpl (by decide)
      · rw [hec] at h
        simp only [List.cons_append, List.nil_append, List.append_assoc] at h
        have ha : a = '\\' := (List.cons_prefix_cons.mp h).1
        have hpl := hw a (by simp)
        rw [ha] at hpl
        exact absurd hpl (by decide)

/-- Auxiliary: the tail of the content marker cannot start right after an
escaped region whose closing quote is followed by anything but a colon. -/
theorem cont_no_marker_tail (s : Str) (d : Char) (t : Str) (hd : d ≠ ':') :
    ¬ ((kContent ++ ['"', ':']) <+: (eStr s ++ '"' :: d :: t)) := by
  intro h
  rcases peel_plain kContent (by decide) s ['"', ':'] ('"' :: d :: t) h with
    ⟨s2, hs, hsuf⟩ | ⟨w1, w2, hw12, hs, hpre⟩
  · cases s2 with
    | nil =>
      simp only [show eStr [] = [] from rfl, List.nil_append] at hsuf
      obtain ⟨-, h2⟩ := List.cons_prefix_cons.mp hsuf
      obtain ⟨h3, -⟩ := List.cons_prefix_cons.mp h2
      exact hd h3.symm
    | cons c s3 =>
      rw [show eStr (c :: s3) = eChar c ++ eStr s3 from rfl] at hsuf
      rcases eChar_cases c with ⟨hec, hq, _, _⟩ | ⟨e, hec, _, _⟩ | ⟨hec, _⟩
      · rw [hec] at hsuf
        simp only [List.cons_append, List.nil_append, List.append_assoc] at hsuf
        exact hq ((List.cons_prefix_cons.mp hsuf).1).symm
      · rw [hec] at hsuf
        simp only [List.cons_append, List.nil_append, List.append_assoc] at hsuf
        exact absurd ((List.cons_prefix_cons.mp hsuf).1).symm (by decide)
      · rw [hec] at hsuf
        simp only [List.cons_append, List.nil_append, List.append_assoc] at hsuf
        exact absurd ((List.cons_prefix_cons.mp hsuf).1).symm (by decide)
  · cases w2 with
    | nil =>
      simp only [List.nil_append] at hpre
      obtain ⟨-, h2⟩ := List.cons_prefix_cons.mp hpre
      obtain ⟨h3, -⟩ := List.cons_prefix_cons.mp h2
      exact hd h3.symm
    | cons b w2' =>
      have hb : b ∈ kContent := by
        rw [hw12]
        simp
      simp only [List.cons_append] at hpre
      have hbq : b = '"' := (List.cons_prefix_cons.mp hpre).1
      exact absurd (hbq ▸ hb) (by decide)

/-- Auxiliary: the content marker cannot start at the opening quote of a
serialized string value that is not followed by a colon. -/
theorem marker_not_at_open_quote (s : Str) (d : Char) (t : Str) (hd : d ≠ ':') :
    ¬ (contentMarker <+: ('"' :: (eStr s ++ '"' :: d :: t))) := by
  intro h
  unfold contentMarker at h
  rw [List.cons_append] at h
  exact cont_no_marker_tail s d t hd ((List.cons_prefix_cons.mp h).2)

/-- Auxiliary: positions inside an escaped string decompose into a
position inside the escape sequence of one source character. -/
theorem eStr_drop_decomp (s : Str) : ∀ j, j < (eStr s).length →
    ∃ w c s2 i, s = w ++ c :: s2 ∧ j = (eStr w).length + i ∧ i < (eChar c).length ∧
      (eStr s).drop j = (eChar c).drop i ++ eStr s2 := by
  induction s with
  | nil =>
    intro j hj
    simp [show eStr [] = [] from rfl] at hj
  | cons c s1 ih =>
    intro j hj
    rw [show eStr (c :: s1) = eChar c ++ eStr s1 from rfl] at hj ⊢
    by_cases hcase : j < (eChar c).length
    · refine ⟨[], c, s1, j, rfl, by simp [show eStr [] = [] from rfl], hcase, ?_⟩
      rw [List.drop_append_of_le_length (le_of_lt hcase)]
    · push_neg at hcase
      obtain ⟨j2, rfl⟩ : ∃ j2, j = (eChar c).length + j2 := ⟨j - (eChar c).length, by omega⟩
      have hj2 : j2 < (eStr s1).length := by
        rw [List.length_append] at hj
        omega
      obtain ⟨w, c2, s2, i, hs, hji, hi, hdrop⟩ := ih j2 hj2
      refine ⟨c :: w, c2, s2, i, by rw [hs, List.cons_append], ?_, hi, ?_⟩
      · rw [show eStr (c :: w) = eChar c ++ eStr w from rfl, List.length_append]
        omega
      · rw [List.drop_append, hdrop]

/-- Auxiliary: hexadecimal digit characters are not quotes. -/
theorem hexDigitChar_ne_quote (k : Nat) (hk : k < 16) : hexDigitChar k ≠ '"' := by
  interval_cases k <;> decide

/-- Auxiliary: the content marker cannot start inside the escape sequence
of a single character of a serialized string value. -/
theorem marker_not_inside_escape (c : Char) (i : Nat) (hi : i < (eChar c).length)
    (s2 : Str) (d : Char) (t : Str) (hd : d ≠ ':') :
    ¬ (contentMarker <+: ((eChar c).drop i ++ (eStr s2 ++ '"' :: d :: t))) := by
  intro h
  have hmk : contentMarker = '"' :: (kContent ++ ['"', ':']) := rfl
  rcases eChar_cases c with ⟨hec, hq, _, _⟩ | ⟨e, hec, hmap, _⟩ | ⟨hec, h32⟩
  · rw [hec] at hi h
    simp only [List.length_cons, List.length_nil] at hi
    interval_cases i
    rw [List.drop_zero, hmk, List.cons_append] at h
    exact hq ((List.cons_prefix_cons.mp h).1).symm
  · rw [hec] at hi h
    simp only [List.length_cons, List.length_nil] at hi
    interval_cases i
    · rw [List.drop_zero, hmk] at h
      simp only [List.cons_append] at h
      exact absurd ((List.cons_prefix_cons.mp h).1).symm (by decide)
    · rw [show (['\\', e] : Str).drop 1 = [e] from rfl, hmk] at h
      simp only [List.cons_append, List.nil_append] at h
      by_cases he : e = '"'
      · subst he
        exact cont_no_marker_tail s2 d t hd (List.cons_prefix_cons.mp h).2
      · exact he ((List.cons_prefix_cons.mp h).1).symm
  · rw [hec] at hi h
    simp only [List.length_cons, List.length_nil] at hi
    have h16a : c.toNat / 16 < 16 := by omega
    have h16b : c.toNat % 16 < 16 := by omega
    interval_cases i
    · rw [List.drop_zero, hmk] at h
      simp only [List.cons_append] at h
      exact absurd ((List.cons_prefix_cons.mp h).1).symm (by decide)
    · rw [show (['\\', 'u', '0', '0', hexDigitChar (c.toNat / 16),
          hexDigitChar (c.toNat % 16)] : Str).drop 1
          = ['u', '0', '0', hexDigitChar (c.toNat / 16), hexDigitChar (c.toNat % 16)] from rfl,
        hmk] at h
      simp only [List.cons_append] at h
      exact absurd ((List.cons_prefix_cons.mp h).1).symm (by decide)
    · rw [show (['\\', 'u', '0', '0', hexDigitChar (c.toNat / 16),
          hexDigitChar (c.toNat % 16)] : Str).drop 2
          = ['0', '0', hexDigitChar (c.toNat / 16), hexDigitChar (c.toNat % 16)] from rfl,
        hmk] at h
      simp only [List.cons_append] at h
      exact absurd ((List.cons_prefix_cons.mp h).1).symm (by decide)
    · rw [show (['\\', 'u', '0', '0', hexDigitChar (c.toNat / 16),
          hexDigitChar (c.toNat % 16)] : Str).drop 3
          = ['0', hexDigitChar (c.toNat / 16), hexDigitChar (c.toNat % 16)] from rfl,
        hmk] at h
      simp only [List.cons_append] at h
      exact absurd ((List.cons_prefix_cons.mp h).1).symm (by decide)
    · rw [show (['\\', 'u', '0', '0', hexDigitChar (c.toNat / 16),
          hexDigitChar (c.toNat % 16)] : Str).drop 4
          = [hexDigitChar (c.toNat / 16), hexDigitChar (c.toNat % 16)] from rfl,
        hmk] at h
      simp only [List.cons_append] at h
      exact hexDigitChar_ne_quote _ h16a ((List.cons_prefix_cons.mp h).1).symm
    · rw [show (['\\', 'u', '0', '0', hexDigitChar (c.toNat / 16),
          hexDigitChar (c.toNat % 16)] : Str).drop 5
          = [hexDigitChar (c.toNat % 16)] from rfl, hmk] at h
      simp only [List.cons_append, List.nil_append] at h
      exact hexDigitChar_ne_quote _ h16b ((List.cons_prefix_cons.mp h).1).symm

/-- Auxiliary: the content marker occurs nowhere in a serialized string
value (its opening quote through its closing quote) whose following
character is neither a colon nor the letter c. -/
theorem noMk_value (s : Str) (d : Char) (t : Str) (hd1 : d ≠ ':') (hd2 : d ≠ 'c') :
    ∀ j, j < (eStr s).length + 2 →
      ¬ (contentMarker <+: (('"' :: (eStr s ++ '"' :: d :: t)).drop j)) := by
  intro j hj h
  cases j with
  | zero =>
    rw [List.drop_zero] at h
    exact marker_not_at_open_quote s d t hd1 h
  | succ j2 =>
    rw [List.drop_succ_cons] at h
    by_cases hcase : j2 < (eStr s).length
    · obtain ⟨w, c, s2, i, hs, hji, hi, hdrop⟩ := eStr_drop_decomp s j2 hcase
      rw [List.drop_append_of_le_length (le_of_lt hcase), hdrop, List.append_assoc] at h
      exact marker_not_inside_escape c i hi s2 d t hd1 h
    · have hj2 : j2 = (eStr s).length := by omega
      subst hj2
      rw [List.drop_append_of_le_length (le_refl _), List.drop_length, List.nil_append] at h
      rw [show contentMarker = '"' :: ('c' :: ('o' :: 'n' :: 't' :: 'e' :: 'n' :: 't' :: ['"', ':'])) from rfl] at h
      obtain ⟨-, h2⟩ := List.cons_prefix_cons.mp h
      exact hd2 ((List.cons_prefix_cons.mp h2).1).symm

/-- Auxiliary: a string starting with the content marker starts with a
quote. -/
theorem marker_head (l : Str) (c : Char) (h : contentMarker <+: c :: l) : c = '"' := by
  rw [show contentMarker = '"' :: ('c' :: ('o' :: ('n' :: ('t' :: ('e' :: ('n' :: ('t' :: ['"', ':']))))))) from rfl] at h
  exact ((List.cons_prefix_cons.mp h).1).symm

/-- Auxiliary: after its quote the content marker continues with the
letter c. -/
theorem marker_second (l : Str) (c : Char) (h : contentMarker <+: '"' :: c :: l) : c = 'c' := by
  rw [show contentMarker = '"' :: ('c' :: ('o' :: ('n' :: ('t' :: ('e' :: ('n' :: ('t' :: ['"', ':']))))))) from rfl] at h
  obtain ⟨-, h2⟩ := List.cons_prefix_cons.mp h
  exact ((List.cons_prefix_cons.mp h2).1).symm

/-- Auxiliary: composing marker-freedom across an append. -/
theorem noMk_append (a b : Str) (m : Nat)
    (ha : ∀ j < a.length, ¬ contentMarker <+: ((a ++ b)).drop j)
    (hb : ∀ j < m, ¬ contentMarker <+: b.drop j) :
    ∀ j < a.length + m, ¬ contentMarker <+: ((a ++ b)).drop j := by
  intro j hj h
  by_cases hja : j < a.length
  · exact ha j hja h
  · obtain ⟨j2, rfl⟩ : ∃ j2, j = a.length + j2 := ⟨j - a.length, by omega⟩
    rw [List.drop_append] at h
    exact hb j2 (by omega) h

/-- Auxiliary: extending marker-freedom through one serialized string
value whose closing quote is followed by a non-colon, non-c character. -/
theorem noMk_value_chain (s b : Str) (d : Char) (tb : Str) (hb_shape : b = d :: tb)
    (hd1 : d ≠ ':') (hd2 : d ≠ 'c') (m : Nat)
    (ht : ∀ j < m, ¬ contentMarker <+: b.drop j) :
    ∀ j < (eStr s).length + 2 + m, ¬ contentMarker <+: (('"' :: (eStr s ++ '"' :: b))).drop j := by
  intro j hj h
  by_cases hv : j < (eStr s).length + 2
  · subst hb_shape
    exact noMk_value s d tb hd1 hd2 j hv h
  · obtain ⟨j2, rfl⟩ : ∃ j2, j = (eStr s).length + 2 + j2 :=
      ⟨j - ((eStr s).length + 2), by omega⟩
    have hdrop : (('"' :: (eStr s ++ '"' :: b))).drop ((eStr s).length + 2 + j2)
        = b.drop j2 := by
      rw [show (eStr s).length + 2 + j2 = ((eStr s).length + (1 + j2)) + 1 from by omega]
      rw [List.drop_succ_cons, List.drop_append,
        show 1 + j2 = j2 + 1 from by omega, List.drop_succ_cons]
    rw [hdrop] at h
    exact ht j2 (by omega) h

/-- Auxiliary: the concrete lead-in of the id field holds no marker
start. -/
theorem noMk_segId (t : Str) :
    ∀ j < 7, ¬ contentMarker <+: (('{' :: '"' :: 'i' :: 'd' :: '"' :: ':' :: ' ' :: t)).drop j := by
  intro j hj h
  interval_cases j <;>
    simp only [List.drop_succ_cons, List.drop_zero] at h <;>
    first
      | exact absurd (marker_head _ _ h) (by decide)
      | exact absurd (marker_second _ _ h) (by decide)

/-- Auxiliary: the concrete separator and key of the title field holds no
marker start. -/
theorem noMk_segTitle (t : Str) :
    ∀ j < 11, ¬ contentMarker <+:
      ((',' :: ' ' :: '"' :: 't' :: 'i' :: 't' :: 'l' :: 'e' :: '"' :: ':' :: ' ' :: t)).drop j := by
  intro j hj h
  interval_cases j <;>
    simp only [List.drop_succ_cons, List.drop_zero] at h <;>
    first
      | exact absurd (marker_head _ _ h) (by decide)
      | exact absurd (marker_second _ _ h) (by decide)

/-- Auxiliary: the concrete separator and key of the rel_path field holds
no marker start. -/
theorem noMk_segRel (t : Str) :
    ∀ j < 14, ¬ contentMarker <+:
      ((',' :: ' ' :: '"' :: 'r' :: 'e' :: 'l' :: '_' :: 'p' :: 'a' :: 't' :: 'h' :: '"' :: ':' :: ' ' :: t)).drop j := by
  intro j hj h
  interval_cases j <;>
    simp only [List.drop_succ_cons, List.drop_zero] at h <;>
    first
      | exact absurd (marker_head _ _ h) (by decide)
      | exact absurd (marker_second _ _ h) (by decide)

/-- Auxiliary: the separator before the content key holds no marker
start. -/
theorem noMk_segComma (t : Str) :
    ∀ j < 2, ¬ contentMarker <+: ((',' :: ' ' :: t)).drop j := by
  intro j hj h
  interval_cases j <;>
    simp only [List.drop_succ_cons, List.drop_zero] at h <;>
    exact absurd (marker_head _ _ h) (by decide)

/-- Suffix of the encoded line from the content marker onwards. -/
def tailC (r : Record) : Str :=
  contentMarker ++ (' ' :: '"' :: (eStr r.content ++ ['"', '}', '\n']))

/-- Suffix of the encoded line from the comma before the content field. -/
def tail1 (r : Record) : Str := ([',', ' '] : Str) ++ tailC r

/-- Suffix of the encoded line from the rel_path value. -/
def tail2 (r : Record) : Str := '"' :: (eStr r.rel_path ++ '"' :: tail1 r)

/-- Suffix of the encoded line from the comma before the rel_path field. -/
def tail3 (r : Record) : Str :=
  ([',', ' ', '"', 'r', 'e', 'l', '_', 'p', 'a', 't', 'h', '"', ':', ' '] : Str) ++ tail2 r

/-- Suffix of the encoded line from the title value. -/
def tail4 (r : Record) : Str := '"' :: (eStr r.title ++ '"' :: tail3 r)

/-- Suffix of the encoded line from the comma before the title field. -/
def tail5 (r : Record) : Str :=
  ([',', ' ', '"', 't', 'i', 't', 'l', 'e', '"', ':', ' '] : Str) ++ tail4 r

/-- Suffix of the encoded line from the id value. -/
def tail6 (r : Record) : Str := '"' :: (eStr r.id ++ '"' :: tail5 r)

/-- The encoded line as a chain of segments. -/
def encChain (r : Record) : Str :=
  (['{', '"', 'i', 'd', '"', ':', ' '] : Str) ++ tail6 r

/-- The part of the encoded line that precedes the content marker. -/
def preChain (r : Record) : Str :=
  '{' :: '"' :: 'i' :: 'd' :: '"' :: ':' :: ' ' ::
    ('"' :: (eStr r.id ++ '"' ::
      (',' :: ' ' :: '"' :: 't' :: 'i' :: 't' :: 'l' :: 'e' :: '"' :: ':' :: ' ' ::
        ('"' :: (eStr r.title ++ '"' ::
          (',' :: ' ' :: '"' :: 'r' :: 'e' :: 'l' :: '_' :: 'p' :: 'a' :: 't' :: 'h' :: '"' :: ':' :: ' ' ::
            ('"' :: (eStr r.rel_path ++ ['"', ',', ' ']))))))))

/-- Auxiliary: the encoded record in chain form. -/
theorem encodeRecord_eq_chain (r : Record) : encodeRecord r = encChain r := by
  unfold encodeRecord encChain recordFields kId kTitle kRelPath
  unfold tail6 tail5 tail4 tail3 tail2 tail1 tailC
  unfold contentMarker kContent
  simp [encodeFields, encodeField, List.append_assoc]

/-- Auxiliary: the chain splits at the content marker. -/
theorem encChain_split (r : Record) : encChain r = preChain r ++ tailC r := by
  unfold encChain preChain
  unfold tail6 tail5 tail4 tail3 tail2 tail1
  simp [List.append_assoc]

/-- Auxiliary: the length of the part before the marker. -/
theorem preChain_length (r : Record) :
    (preChain r).length
      = 40 + (eStr r.id).length + (eStr r.title).length + (eStr r.rel_path).length := by
  unfold preChain
  simp only [List.length_cons, List.length_append, List.length_nil]
  omega

/-- Auxiliary: the content marker does not occur before its structural
position in an encoded record line. -/
theorem noMk_encodeRecord (r : Record) :
    ∀ j < (preChain r).length, ¬ contentMarker <+: ((encodeRecord r)).drop j := by
  have h1 : ∀ j < 2 + 0, ¬ contentMarker <+: (tail1 r).drop j :=
    noMk_append [',', ' '] (tailC r) 0
      (fun j hj => noMk_segComma (tailC r) j hj)
      (fun j hj => absurd hj (by omega))
  have h2 : ∀ j < (eStr r.rel_path).length + 2 + (2 + 0),
      ¬ contentMarker <+: (tail2 r).drop j :=
    noMk_value_chain r.rel_path (tail1 r) ',' (' ' :: tailC r) rfl
      (by decide) (by decide) (2 + 0) h1
  have h3 : ∀ j < 14 + ((eStr r.rel_path).length + 2 + (2 + 0)),
      ¬ contentMarker <+: (tail3 r).drop j :=
    noMk_append ([',', ' ', '"', 'r', 'e', 'l', '_', 'p', 'a', 't', 'h', '"', ':', ' '] : Str)
      (tail2 r) _ (fun j hj => noMk_segRel (tail2 r) j hj) h2
  have h4 : ∀ j < (eStr r.title).length + 2 + (14 + ((eStr r.rel_path).length + 2 + (2 + 0))),
      ¬ contentMarker <+: (tail4 r).drop j :=
    noMk_value_chain r.title (tail3 r) ','
      (' ' :: (('"' :: 'r' :: 'e' :: 'l' :: '_' :: 'p' :: 'a' :: 't' :: 'h' :: '"' :: ':' :: ' ' :: []) ++ tail2 r))
      rfl (by decide) (by decide) _ h3
  have h5 : ∀ j < 11 + ((eStr r.title).length + 2 + (14 + ((eStr r.rel_path).length + 2 + (2 + 0)))),
      ¬ contentMarker <+: (tail5 r).drop j :=
    noMk_append ([',', ' ', '"', 't', 'i', 't', 'l', 'e', '"', ':', ' '] : Str)
      (tail4 r) _ (fun j hj => noMk_segTitle (tail4 r) j hj) h4
  have h6 : ∀ j < (eStr r.id).length + 2
        + (11 + ((eStr r.title).length + 2 + (14 + ((eStr r.rel_path).length + 2 + (2 + 0))))),
      ¬ contentMarker <+: (tail6 r).drop j :=
    noMk_value_chain r.id (tail5 r) ','
      (' ' :: (('"' :: 't' :: 'i' :: 't' :: 'l' :: 'e' :: '"' :: ':' :: ' ' :: []) ++ tail4 r))
      rfl (by decide) (by decide) _ h5
  have h7 : ∀ j < 7 + ((eStr r.id).length + 2
        + (11 + ((eStr r.title).length + 2 + (14 + ((eStr r.rel_path).length + 2 + (2 + 0)))))),
      ¬ contentMarker <+: (encChain r).drop j :=
    noMk_append (['{', '"', 'i', 'd', '"', ':', ' '] : Str)
      (tail6 r) _ (fun j hj => noMk_segId (tail6 r) j hj) h6
  intro j hj h
  rw [encodeRecord_eq_chain] at h
  refine h7 j ?_ h
  rw [preChain_length] at hj
  omega

/-- Auxiliary: bytes.find returns the first index at which the pattern is a
prefix of the remaining suffix. -/
theorem findSubAux_first (pat : Str) (hpat : pat ≠ []) :
    ∀ (n : Nat) (l : Str) (k : Nat), (∀ j < n, ¬ pat <+: l.drop j) → pat <+: l.drop n →
      findSubAux pat l k = some (k + n) := by
  intro n
  induction n with
  | zero =>
    intro l k _ hyes
    rw [List.drop_zero] at hyes
    match l with
    | [] =>
      rw [List.prefix_nil] at hyes
      exact absurd hyes hpat
    | c :: cs =>
      rw [findSubAux, if_pos (List.isPrefixOf_iff_prefix.mpr hyes), Option.some.injEq]
      omega
  | succ n ih =>
    intro l k hno hyes
    match l with
    | [] =>
      rw [List.drop_nil, List.prefix_nil] at hyes
      exact absurd hyes hpat
    | c :: cs =>
      rw [findSubAux, if_neg, ih cs (k + 1)
          (fun j hj => by have := hno (j + 1) (by omega); rwa [List.drop_succ_cons] at this)
          (by rwa [List.drop_succ_cons] at hyes)]
      · rw [Option.some.injEq]
        omega
      · rw [List.isPrefixOf_iff_prefix]
        have := hno 0 (by omega)
        rwa [List.drop_zero] at this

/-- Auxiliary: on an encoded record line, the builder's marker search finds
exactly the structural position of the content field. -/
theorem findSub_encodeRecord (r : Record) :
    findSub contentMarker (encodeRecord r) = some ((preChain r).length) := by
  have hyes : contentMarker <+: (encodeRecord r).drop ((preChain r).length) := by
    rw [encodeRecord_eq_chain, encChain_split, List.drop_left]
    unfold tailC
    exact List.prefix_append _ _
  unfold findSub
  rw [findSubAux_first contentMarker (by decide) ((preChain r).length) (encodeRecord r) 0
      (noMk_encodeRecord r) hyes]
  rw [Option.some.injEq]
  omega

/-- The pre-content slice of an encoded line, before strip and comma
removal: the three metadata fields as an unclosed object. -/
def base3 (r : Record) : Str :=
  '{' :: encodeFields [(kId, r.id), (kTitle, r.title), (kRelPath, r.rel_path)]

/-- Auxiliary: the part before the marker is the metadata object plus a
trailing comma and space. -/
theorem preChain_eq (r : Record) : preChain r = base3 r ++ [',', ' '] := by
  unfold preChain base3 kId kTitle kRelPath
  simp [encodeFields, encodeField, List.append_assoc]

/-- Auxiliary: python strip on a brace-led slice with a trailing comma and
space removes exactly the space. -/
theorem pyStrip_wrap (x : Str) :
    pyStrip ('{' :: (x ++ [',', ' '])) = '{' :: (x ++ [',']) := by
  unfold pyStrip
  rw [List.dropWhile_cons, if_neg (by decide)]
  rw [show ('{' :: (x ++ [',', ' '])).reverse = ' ' :: ',' :: (x.reverse ++ ['{']) from by simp]
  rw [List.dropWhile_cons, if_pos (by decide), List.dropWhile_cons, if_neg (by decide)]
  simp

/-- Auxiliary: trailing-comma removal on a slice that ends in a comma. -/
theorem stripComma_wrap (y : Str) : stripTrailingComma (y ++ [',']) = y := by
  unfold stripTrailingComma
  rw [List.getLast?_concat, if_pos rfl, List.dropLast_concat]

/-- Auxiliary: metadata extraction from a three-field string object. -/
theorem metaOfJv_record (i tl rp : Str) :
    metaOfJv (Jv.obj [(kId, Jv.str i), (kTitle, Jv.str tl), (kRelPath, Jv.str rp)])
      = if i = [] then none else some (i, Jv.str tl, Jv.str rp) := rfl

/-- Auxiliary: unfolding lineMeta when the marker search result is known. -/
theorem lineMeta_of_findSub (line : Str) (idx : Nat)
    (h : findSub contentMarker line = some idx) :
    lineMeta line = if 0 < idx then
      (match jsonParse (stripTrailingComma (pyStrip (line.take idx)) ++ ['}']) with
       | some m => metaOfJv m
       | none => none)
    else
      (match jsonParse line with
       | some m => metaOfJv m
       | none => none) := by
  unfold lineMeta
  rw [h]

/-- Auxiliary: the builder's per-line extraction on an encoded record line
yields the record's id, title and rel_path (skipping records with an empty
id, which Python treats as falsy). -/
theorem lineMeta_encodeRecord (r : Record) :
    lineMeta (encodeRecord r)
      = if r.id = [] then none
        else some (r.id, Jv.str r.title, Jv.str r.rel_path) := by
  have hpos : 0 < (preChain r).length := by
    rw [preChain_length]
    omega
  have hfs : ∀ kv ∈ [(kId, r.id), (kTitle, r.title), (kRelPath, r.rel_path)],
      ∀ c ∈ kv.1, eChar c = [c] := by
    intro kv hkv
    simp only [List.mem_cons, List.not_mem_nil, or_false] at hkv
    rcases hkv with h | h | h <;> subst h
    · exact (by decide : ∀ c ∈ kId, eChar c = [c])
    · exact (by decide : ∀ c ∈ kTitle, eChar c = [c])
    · exact (by decide : ∀ c ∈ kRelPath, eChar c = [c])
  have htake : (encodeRecord r).take (preChain r).length = preChain r := by
    rw [encodeRecord_eq_chain, encChain_split]
    exact List.take_left _ _
  rw [lineMeta_of_findSub _ _ (findSub_encodeRecord r), if_pos hpos, htake, preChain_eq]
  rw [show base3 r ++ ([',', ' '] : Str)
      = '{' :: (encodeFields [(kId, r.id), (kTitle, r.title), (kRelPath, r.rel_path)]
          ++ [',', ' ']) from by rw [base3, List.cons_append]]
  rw [pyStrip_wrap]
  rw [show '{' :: (encodeFields [(kId, r.id), (kTitle, r.title), (kRelPath, r.rel_path)] ++ [','])
      = ('{' :: encodeFields [(kId, r.id), (kTitle, r.title), (kRelPath, r.rel_path)]) ++ [',']
      from rfl]
  rw [stripComma_wrap]
  rw [show ('{' :: encodeFields [(kId, r.id), (kTitle, r.title), (kRelPath, r.rel_path)]) ++ ['}']
      = '{' :: (encodeFields [(kId, r.id), (kTitle, r.title), (kRelPath, r.rel_path)] ++ '}' :: [])
      from rfl]
  rw [jsonParse_obj_fields _ [] (List.cons_ne_nil _ _) hfs rfl]
  show metaOfJv (Jv.obj (([(kId, r.id), (kTitle, r.title), (kRelPath, r.rel_path)]).map
      (fun kv => (kv.1, Jv.str kv.2)))) = _
  rw [show ([(kId, r.id), (kTitle, r.title), (kRelPath, r.rel_path)]).map
      (fun kv => (kv.1, Jv.str kv.2))
      = [(kId, Jv.str r.id), (kTitle, Jv.str r.title), (kRelPath, Jv.str r.rel_path)] from rfl]
  rw [metaOfJv_record]

/-! ### Corpus lines: no interior newlines, splitting, reading back -/

/-- Auxiliary: hexadecimal digit characters are never a newline. -/
theorem hexDigitChar_ne_nl (k : Nat) (hk : k < 16) : hexDigitChar k ≠ '\n' := by
  interval_cases k <;> decide

/-- Auxiliary: the serialization of a single character never contains a
raw newline (newlines are escaped). -/
theorem eChar_not_nl (c : Char) : ¬ '\n' ∈ eChar c := by
  unfold eChar
  by_cases h1 : c = '"'
  · rw [if_pos h1]; decide
  rw [if_neg h1]
  by_cases h2 : c = '\\'
  · rw [if_pos h2]; decide
  rw [if_neg h2]
  by_cases h3 : c = '\n'
  · rw [if_pos h3]; decide
  rw [if_neg h3]
  by_cases h4 : c = '\r'
  · rw [if_pos h4]; decide
  rw [if_neg h4]
  by_cases h5 : c = '\t'
  · rw [if_pos h5]; decide
  rw [if_neg h5]
  by_cases h6 : c = '\x08'
  · rw [if_pos h6]; decide
  rw [if_neg h6]
  by_cases h7 : c = '\x0c'
  · rw [if_pos h7]; decide
  rw [if_neg h7]
  by_cases h8 : c.toNat < 32
  · rw [if_pos h8]
    intro hmem
    simp only [List.mem_cons, List.not_mem_nil, or_false] at hmem
    rcases hmem with h | h | h | h | h | h
    · exact absurd h (by decide)
    · exact absurd h (by decide)
    · exact absurd h (by decide)
    · exact absurd h (by decide)
    · exact absurd h.symm (hexDigitChar_ne_nl _ (by omega))
    · exact absurd h.symm (hexDigitChar_ne_nl _ (Nat.mod_lt _ (by omega)))
  · rw [if_neg h8]
    intro hmem
    simp only [List.mem_cons, List.not_mem_nil, or_false] at hmem
    exact h3 hmem.symm

/-- Auxiliary: serialized string values contain no raw newline. -/
theorem eStr_not_nl (s : Str) : ¬ '\n' ∈ eStr s := by
  induction s with
  | nil => intro h; exact absurd h (by decide)
  | cons c cs ih =>
    intro h
    rw [show eStr (c :: cs) = eChar c ++ eStr cs from rfl, List.mem_append] at h
    rcases h with h | h
    · exact eChar_not_nl c h
    · exact ih h

/-- Auxiliary: a serialized field with a newline-free key contains no raw
newline. -/
theorem encodeField_not_nl (k v : Str) (hk : ¬ '\n' ∈ k) : ¬ '\n' ∈ encodeField k v := by
  unfold encodeField
  intro h
  rw [List.mem_append] at h
  rcases h with h | h
  · rw [List.mem_append] at h
    rcases h with h | h
    · rw [List.mem_cons] at h
      rcases h with h | h
      · exact absurd h (by decide)
      · exact hk h
    rw [List.mem_cons] at h
    rcases h with h | h
    · exact absurd h (by decide)
    rw [List.mem_cons] at h
    rcases h with h | h
    · exact absurd h (by decide)
    rw [List.mem_cons] at h
    rcases h with h | h
    · exact absurd h (by decide)
    rw [List.mem_cons] at h
    rcases h with h | h
    · exact absurd h (by decide)
    · exact eStr_not_nl v h
  · exact absurd h (by decide)

/-- Auxiliary: prepending one newline-free field to newline-free members
keeps them newline-free. -/
theorem notNl_fieldStep (k v : Str) (restE : Str) (hk : ¬ '\n' ∈ k)
    (hr : ¬ '\n' ∈ restE) :
    ¬ '\n' ∈ (encodeField k v ++ ',' :: ' ' :: restE) := by
  intro h
  rw [List.mem_append] at h
  rcases h with h | h
  · exact encodeField_not_nl k v hk h
  rw [List.mem_cons] at h
  rcases h with h | h
  · exact absurd h (by decide)
  rw [List.mem_cons] at h
  rcases h with h | h
  · exact absurd h (by decide)
  · exact hr h

/-- Auxiliary: the serialized members of a record are newline-free. -/
theorem encodeFields_record_not_nl (r : Record) :
    ¬ '\n' ∈ encodeFields (recordFields r) :=
  show ¬ '\n' ∈ (encodeField kId r.id ++ ',' :: ' ' ::
      (encodeField kTitle r.title ++ ',' :: ' ' ::
        (encodeField kRelPath r.rel_path ++ ',' :: ' ' ::
          encodeField kContent r.content))) from
    notNl_fieldStep _ _ _ (by decide)
      (notNl_fieldStep _ _ _ (by decide)
        (notNl_fieldStep _ _ _ (by decide)
          (encodeField_not_nl _ _ (by decide))))

/-- Auxiliary: everything before the final newline of an encoded record
line is newline-free. -/
theorem encBody_not_nl (r : Record) :
    ¬ '\n' ∈ ('{' :: encodeFields (recordFields r) ++ ['}']) := by
  intro h
  rw [List.mem_append] at h
  rcases h with h | h
  · rw [List.mem_cons] at h
    rcases h with h | h
    · exact absurd h (by decide)
    · exact encodeFields_record_not_nl r h
  · exact absurd h (by decide)

/-- Auxiliary: line iteration takes a newline-free body plus newline as one
yielded line. -/
theorem splitLinesAux_no_nl : ∀ (body : Str), ¬ '\n' ∈ body →
    ∀ (rest acc : Str), splitLinesAux (body ++ '\n' :: rest) acc
      = (acc.reverse ++ body ++ ['\n']) :: splitLinesAux rest [] := by
  intro body
  induction body with
  | nil =>
    intro _ rest acc
    rw [List.nil_append]
    show (if ('\n' : Char) = '\n' then (acc.reverse ++ ['\n']) :: splitLinesAux rest []
      else splitLinesAux rest ('\n' :: acc)) = _
    rw [if_pos rfl, List.append_nil]
  | cons c cs ih =>
    intro hb rest acc
    have hc : ¬ c = '\n' := fun h => hb (by rw [h]; exact List.mem_cons_self _ _)
    rw [List.cons_append]
    show (if c = '\n' then (acc.reverse ++ ['\n']) :: splitLinesAux (cs ++ '\n' :: rest) []
      else splitLinesAux (cs ++ '\n' :: rest) (c :: acc)) = _
    rw [if_neg hc, ih (fun h => hb (List.mem_cons_of_mem _ h)) rest (c :: acc)]
    congr 2
    rw [List.reverse_cons, List.append_assoc, List.singleton_append]

/-- Auxiliary: iterating a corpus file yields exactly the encoded record
lines. -/
theorem splitLines_corpus (rs : List Record) :
    splitLines (corpusOf rs) = rs.map encodeRecord := by
  unfold splitLines
  induction rs with
  | nil => rfl
  | cons r rs ih =>
    rw [corpusOf]
    rw [show encodeRecord r ++ corpusOf rs
        = ('{' :: encodeFields (recordFields r) ++ ['}']) ++ '\n' :: corpusOf rs from by
      unfold encodeRecord
      simp]
    rw [splitLinesAux_no_nl _ (encBody_not_nl r) (corpusOf rs) [], List.map_cons, ← ih]
    congr 1
    unfold encodeRecord
    simp

/-- Auxiliary: the corpus is the flattening of its lines. -/
theorem corpusOf_flatten (rs : List Record) :
    corpusOf rs = (rs.map encodeRecord).flatten := by
  induction rs with
  | nil => rfl
  | cons r rs ih => rw [corpusOf, List.map_cons, List.flatten_cons, ih]

/-- Auxiliary: seeking past a prefix of lines lands at the start of the
remaining lines. -/
theorem flatten_drop_sumLen (pre rest : List Str) :
    ((pre ++ rest).flatten).drop (sumLen pre) = rest.flatten := by
  rw [List.flatten_append]
  rw [show sumLen pre = pre.flatten.length from by unfold sumLen; rw [List.length_flatten]]
  exact List.drop_left _ _

/-- Auxiliary: takeWhile over a newline-free body stops at the newline. -/
theorem takeWhile_no_nl : ∀ (body : Str), ¬ '\n' ∈ body → ∀ rest : Str,
    (body ++ '\n' :: rest).takeWhile (fun c => !(c = '\n')) = body := by
  intro body
  induction body with
  | nil =>
    intro _ rest
    rw [List.nil_append, List.takeWhile_cons]
    simp
  | cons c cs ih =>
    intro hb rest
    have hc : ¬ c = '\n' := fun h => hb (by rw [h]; exact List.mem_cons_self _ _)
    rw [List.cons_append, List.takeWhile_cons, if_pos (by simp [hc]),
      ih (fun h => hb (List.mem_cons_of_mem _ h)) rest]

/-- Auxiliary: dropWhile over a newline-free body stops at the newline. -/
theorem dropWhile_no_nl : ∀ (body : Str), ¬ '\n' ∈ body → ∀ rest : Str,
    (body ++ '\n' :: rest).dropWhile (fun c => !(c = '\n')) = '\n' :: rest := by
  intro body
  induction body with
  | nil =>
    intro _ rest
    rw [List.nil_append, List.dropWhile_cons]
    simp
  | cons c cs ih =>
    intro hb rest
    have hc : ¬ c = '\n' := fun h => hb (by rw [h]; exact List.mem_cons_self _ _)
    rw [List.cons_append, List.dropWhile_cons, if_pos (by simp [hc]),
      ih (fun h => hb (List.mem_cons_of_mem _ h)) rest]

/-- Auxiliary: readline at a line start returns that full line with its
newline. -/
theorem readline_spec (body rest : Str) (hb : ¬ '\n' ∈ body) :
    readline (body ++ '\n' :: rest) = body ++ ['\n'] := by
  unfold readline
  rw [takeWhile_no_nl body hb rest, dropWhile_no_nl body hb rest]
  rfl

/-- Auxiliary: the record keys serialize verbatim. -/
theorem recordFields_keys_plain (r : Record) :
    ∀ kv ∈ recordFields r, ∀ c ∈ kv.1, eChar c = [c] := by
  intro kv hkv
  unfold recordFields at hkv
  simp only [List.mem_cons, List.not_mem_nil, or_false] at hkv
  rcases hkv with h | h | h | h <;> subst h
  · exact (by decide : ∀ c ∈ kId, eChar c = [c])
  · exact (by decide : ∀ c ∈ kTitle, eChar c = [c])
  · exact (by decide : ∀ c ∈ kRelPath, eChar c = [c])
  · exact (by decide : ∀ c ∈ kContent, eChar c = [c])

/-- Auxiliary: json.loads on a full encoded record line returns the
record's object. -/
theorem jsonParse_encodeRecord (r : Record) :
    jsonParse (encodeRecord r) = some (recordJv r) := by
  unfold encodeRecord
  rw [show '{' :: encodeFields (recordFields r) ++ '}' :: ['\n']
      = '{' :: (encodeFields (recordFields r) ++ '}' :: ['\n']) from rfl]
  rw [jsonParse_obj_fields (recordFields r) ['\n']
      (by unfold recordFields; exact List.cons_ne_nil _ _)
      (recordFields_keys_plain r) rfl]
  rfl

/-! ### Canonical ids are fixed points of normalize_id -/

/-- Auxiliary: characters with equal code points are equal. -/
theorem char_eq_of_toNat (a b : Char) (h : a.toNat = b.toNat) : a = b := by
  have h2 : (Char.ofNat a.toNat) = Char.ofNat b.toNat := by rw [h]
  rwa [Char.ofNat_toNat, Char.ofNat_toNat] at h2

/-- Auxiliary: the shape behind a successful canonical-id check. -/
theorem isCanonId_shape (s : Str) (h : isCanonId s = true) :
    ∃ ds, s = 'D' :: 'O' :: 'C' :: ds ∧ ds.length = 6 ∧ ds.all Char.isDigit = true := by
  unfold isCanonId at h
  split at h
  next ds =>
    rw [Bool.and_eq_true, beq_iff_eq] at h
    exact ⟨ds, rfl, h.1, h.2⟩
  next => exact absurd h (by decide)

/-- Auxiliary: digits are not Python whitespace. -/
theorem pyWs_of_digit (c : Char) (h : c.isDigit = true) : pyWs c = false := by
  cases hpw : pyWs c
  · rfl
  · rw [pyWs_not_digit c hpw] at h
    exact absurd h (by decide)

/-- Auxiliary: a canonical id survives strip unchanged. -/
theorem pyStrip_canon (ds : Str) (hne : ds ≠ []) (hd : ds.all Char.isDigit = true) :
    pyStrip ('D' :: 'O' :: 'C' :: ds) = 'D' :: 'O' :: 'C' :: ds := by
  unfold pyStrip
  rw [List.dropWhile_cons, if_neg (by decide)]
  obtain ⟨ds0, d, rfl⟩ : ∃ ds0 d, ds = ds0 ++ [d] := by
    rcases List.eq_nil_or_concat ds with h | ⟨ds0, d, h⟩
    · exact absurd h hne
    · exact ⟨ds0, d, by rw [h, List.concat_eq_append]⟩
  have hdd : d.isDigit = true := by
    rw [List.all_eq_true] at hd
    exact hd d (List.mem_append_right _ (List.mem_cons_self _ _))
  rw [show ('D' :: 'O' :: 'C' :: (ds0 ++ [d])).reverse
      = d :: (ds0.reverse ++ ['C', 'O', 'D']) from by simp]
  rw [List.dropWhile_cons, if_neg (by rw [pyWs_of_digit d hdd]; exact fun h => absurd h (by decide))]
  rw [show (d :: (ds0.reverse ++ ['C', 'O', 'D'])).reverse
      = 'D' :: 'O' :: 'C' :: (ds0 ++ [d]) from by simp]

/-- Auxiliary: a canonical id survives upper-casing unchanged. -/
theorem mapUpper_canon (ds : Str) (hd : ds.all Char.isDigit = true) :
    ('D' :: 'O' :: 'C' :: ds).map Char.toUpper = 'D' :: 'O' :: 'C' :: ds := by
  rw [List.map_cons, List.map_cons, List.map_cons]
  rw [show Char.toUpper 'D' = 'D' from by decide, show Char.toUpper 'O' = 'O' from by decide,
    show Char.toUpper 'C' = 'C' from by decide]
  have hds : ds.map Char.toUpper = ds := by
    calc ds.map Char.toUpper
        = ds.map id := List.map_congr_left (fun c hc => toUpper_of_digit c (by
          rw [List.all_eq_true] at hd
          exact hd c hc))
      _ = ds := List.map_id _
  rw [hds]

/-- Auxiliary: takeWhile keeps a list all of whose elements pass. -/
theorem takeWhile_eq_self_of_all (p : Char → Bool) :
    ∀ l : Str, l.all p = true → l.takeWhile p = l := by
  intro l
  induction l with
  | nil => intro _; rfl
  | cons c cs ih =>
    intro h
    rw [List.all_cons, Bool.and_eq_true] at h
    rw [List.takeWhile_cons, if_pos h.1, ih h.2]

/-- Auxiliary: the first digit run of a canonical id is its digit block. -/
theorem firstDigitRun_canon (ds : Str) (hne : ds ≠ []) (hd : ds.all Char.isDigit = true) :
    firstDigitRun ('D' :: 'O' :: 'C' :: ds) = some ds := by
  obtain ⟨d0, rest, rfl⟩ : ∃ d0 rest, ds = d0 :: rest := by
    cases ds with
    | nil => exact absurd rfl hne
    | cons d0 rest => exact ⟨d0, rest, rfl⟩
  have hd0 : d0.isDigit = true := by
    rw [List.all_eq_true] at hd
    exact hd d0 (List.mem_cons_self _ _)
  unfold firstDigitRun
  rw [List.dropWhile_cons, if_pos (by decide), List.dropWhile_cons, if_pos (by decide),
    List.dropWhile_cons, if_pos (by decide),
    List.dropWhile_cons, if_neg (by rw [hd0]; exact fun h => absurd h (by decide))]
  show some ((d0 :: rest).takeWhile Char.isDigit) = some (d0 :: rest)
  rw [takeWhile_eq_self_of_all Char.isDigit (d0 :: rest) hd]

/-- Auxiliary: Horner evaluation of digit characters as ofDigits of the
reversed digit values. -/
theorem digitsVal_foldl (core : Str) : ∀ a : Nat,
    core.foldl (fun a c => 10 * a + (c.toNat - 48)) a
      = a * 10 ^ core.length + Nat.ofDigits 10 ((core.map (fun c => c.toNat - 48)).reverse) := by
  induction core with
  | nil =>
    intro a
    simp [Nat.ofDigits]
  | cons c cs ih =>
    intro a
    rw [List.foldl_cons, ih (10 * a + (c.toNat - 48))]
    rw [List.map_cons, List.reverse_cons, Nat.ofDigits_append]
    simp only [List.length_cons, List.length_reverse, List.length_map, pow_succ]
    rw [show Nat.ofDigits 10 [c.toNat - 48] = c.toNat - 48 from by
      simp [Nat.ofDigits_singleton]]
    ring

/-- Auxiliary: a digit string with a non-zero leading digit renders back to
itself. -/
theorem natRepr_digitsVal (c : Char) (rest : Str)
    (hall : (c :: rest).all Char.isDigit = true) (hc0 : ¬ c = '0') :
    natRepr (digitsVal (c :: rest)) = c :: rest := by
  have hval : digitsVal (c :: rest)
      = Nat.ofDigits 10 (((c :: rest).map (fun ch => ch.toNat - 48)).reverse) := by
    unfold digitsVal
    rw [digitsVal_foldl (c :: rest) 0]
    simp
  have hlt : ∀ v ∈ ((c :: rest).map (fun ch => ch.toNat - 48)).reverse, v < 10 := by
    intro v hv
    rw [List.mem_reverse, List.mem_map] at hv
    obtain ⟨ch, hch, rfl⟩ := hv
    have hchd : ch.isDigit = true := by
      rw [List.all_eq_true] at hall
      exact hall ch hch
    rw [isDigit_iff_toNat] at hchd
    omega
  have hcd : 48 ≤ c.toNat ∧ c.toNat ≤ 57 := by
    rw [← isDigit_iff_toNat]
    rw [List.all_eq_true] at hall
    exact hall c (List.mem_cons_self _ _)
  have hcpos : c.toNat - 48 ≠ 0 := by
    intro h0
    apply hc0
    exact char_eq_of_toNat c '0' (by
      show c.toNat = 48
      omega)
  have hlast0 : ∀ (h : ((c :: rest).map (fun ch => ch.toNat - 48)).reverse ≠ []),
      (((c :: rest).map (fun ch => ch.toNat - 48)).reverse).getLast h ≠ 0 := by
    intro h
    have h1 : (((c :: rest).map (fun ch => ch.toNat - 48)).reverse).getLast?
        = some (c.toNat - 48) := by
      rw [List.getLast?_reverse]
      rfl
    rw [List.getLast?_eq_getLast _ h, Option.some.injEq] at h1
    rw [h1]
    exact hcpos
  have hdig : Nat.digits 10 (Nat.ofDigits 10 (((c :: rest).map (fun ch => ch.toNat - 48)).reverse))
      = ((c :: rest).map (fun ch => ch.toNat - 48)).reverse :=
    Nat.digits_ofDigits 10 (by norm_num) _ hlt hlast0
  have hne0 : digitsVal (c :: rest) ≠ 0 := by
    intro h0
    rw [hval] at h0
    rw [h0, Nat.digits_zero] at hdig
    have h2 : (((c :: rest).map (fun ch => ch.toNat - 48)).reverse) ≠ [] := by simp
    exact h2 hdig.symm
  unfold natRepr
  rw [if_neg hne0, natDigitsF_eq_digits _ _ (le_refl _), hval, hdig, List.reverse_reverse,
    List.map_map]
  calc (c :: rest).map ((fun d => Char.ofNat (48 + d)) ∘ (fun ch => ch.toNat - 48))
      = (c :: rest).map id := List.map_congr_left (fun ch hch => by
        have hchd : ch.isDigit = true := by
          rw [List.all_eq_true] at hall
          exact hall ch hch
        rw [isDigit_iff_toNat] at hchd
        show Char.ofNat (48 + (ch.toNat - 48)) = ch
        rw [show 48 + (ch.toNat - 48) = ch.toNat from by omega]
        exact Char.ofNat_toNat ch)
    _ = c :: rest := List.map_id _

/-- Auxiliary: leading zero characters do not change the numeric value. -/
theorem foldl_zeros (n : Nat) :
    (List.replicate n '0').foldl (fun a c => 10 * a + (c.toNat - 48)) 0 = 0 := by
  induction n with
  | zero => rfl
  | succ m ih =>
    rw [List.replicate_succ, List.foldl_cons]
    exact ih

/-- Auxiliary: stripping leading zeros preserves the numeric value. -/
theorem digitsVal_zeros (n : Nat) (core : Str) :
    digitsVal (List.replicate n '0' ++ core) = digitsVal core := by
  unfold digitsVal
  rw [List.foldl_append, foldl_zeros]

/-- Auxiliary: the 06d format inverts int() on a six-digit string. -/
theorem pad6_canon (ds : Str) (hlen : ds.length = 6) (hall : ds.all Char.isDigit = true) :
    pad6 (digitsVal ds) = ds := by
  have hsplit : ds = ds.takeWhile (fun c => decide (c = '0'))
      ++ ds.dropWhile (fun c => decide (c = '0')) :=
    (List.takeWhile_append_dropWhile _ _).symm
  have hzrep : ds.takeWhile (fun c => decide (c = '0'))
      = List.replicate (ds.takeWhile (fun c => decide (c = '0'))).length '0' := by
    apply List.eq_replicate_length.mpr
    intro x hx
    have := List.mem_takeWhile_imp hx
    simpa using this
  cases hcore : ds.dropWhile (fun c => decide (c = '0')) with
  | nil =>
    have hds : ds = List.replicate 6 '0' := by
      have h1 := hsplit
      rw [hcore, List.append_nil, hzrep] at h1
      rw [h1] at hlen ⊢
      rw [List.length_replicate] at hlen
      rw [hlen]
    rw [hds]
    rw [show digitsVal (List.replicate 6 '0') = digitsVal ([] : Str) from by
      rw [show List.replicate 6 '0' = List.replicate 6 '0' ++ ([] : Str) from by simp,
        digitsVal_zeros]]
    decide
  | cons c rest =>
    have hc0 : ¬ c = '0' := by
      have := List.head?_dropWhile_not (fun c => decide (c = '0')) ds
      rw [hcore] at this
      simpa using this
    have hsub : ∀ x ∈ c :: rest, x ∈ ds := by
      intro x hx
      rw [← hcore] at hx
      exact (List.dropWhile_sublist _).subset hx
    have hallc : (c :: rest).all Char.isDigit = true := by
      rw [List.all_eq_true]
      intro x hx
      rw [List.all_eq_true] at hall
      exact hall x (hsub x hx)
    have hdv : digitsVal ds = digitsVal (c :: rest) := by
      conv_lhs => rw [hsplit, hcore, hzrep]
      rw [digitsVal_zeros]
    have hlenz : (ds.takeWhile (fun c => decide (c = '0'))).length + (c :: rest).length = 6 := by
      have h1 : ds.length = (ds.takeWhile (fun c => decide (c = '0'))).length
          + (ds.dropWhile (fun c => decide (c = '0'))).length := by
        conv_lhs => rw [hsplit]
        rw [List.length_append]
      rw [hcore] at h1
      omega
    unfold pad6
    rw [hdv, natRepr_digitsVal c rest hallc hc0]
    conv_rhs => rw [hsplit, hcore, hzrep]
    congr 1
    congr 1
    omega

/-- Auxiliary: normalize_id is the identity on canonical ids. -/
theorem normalize_canon (s : Str) (h : isCanonId s = true) : normalize_id s = s := by
  obtain ⟨ds, rfl, hlen, hdig⟩ := isCanonId_shape s h
  have hne : ds ≠ [] := by
    intro h0
    rw [h0] at hlen
    exact absurd hlen (by decide)
  unfold normalize_id
  simp only [pyStrip_canon ds hne hdig, mapUpper_canon ds hdig, firstDigitRun_canon ds hne hdig]
  show ['D', 'O', 'C'] ++ pad6 (digitsVal ds) = 'D' :: 'O' :: 'C' :: ds
  rw [pad6_canon ds hlen hdig]
  rfl

/-- Auxiliary: offsets of concatenated line lists. -/
theorem withOffsets_split (a b : List Str) (n : Nat) :
    withOffsets (a ++ b) n = withOffsets a n ++ withOffsets b (n + sumLen a) := by
  induction a generalizing n with
  | nil =>
    simp [withOffsets, sumLen]
  | cons x xs ih =>
    rw [List.cons_append, withOffsets, withOffsets, ih (n + x.length), List.cons_append]
    have heq : n + x.length + sumLen xs = n + sumLen (x :: xs) := by
      simp only [sumLen, List.map_cons, List.sum_cons]
      omega
    rw [heq]

/-! ### The round trip of writing, indexing and reading a record -/

/-- Claim C1 (amended): round-trip correctness of the index/read pipeline
holds for records whose id is already in canonical DOC* form and is not
shared with a distinct record of the corpus: writing the records to a JSONL
corpus, indexing it with the Index Builder and calling get_doc on the
record's id returns exactly the record's parsed JSON object, with id,
title, rel_path and content identical to the original.  (Without the
canonical-form hypothesis get_doc misses the index key, see C10; without
uniqueness the last duplicate wins, see C8 and the counterexample.) -/
theorem c1_round_trip (rs : List Record) (r : Record) (hmem : r ∈ rs)
    (hcanon : isCanonId r.id = true)
    (huniq : ∀ r2 ∈ rs, r2.id = r.id → r2 = r) :
    get_doc (build_jsonl_index (corpusOf rs)) (corpusOf rs) r.id = some (recordJv r) := by
  have hidne : ¬ r.id = [] := by
    intro h0
    rw [h0] at hcanon
    exact absurd hcanon (by decide)
  have hnorm := normalize_canon r.id hcanon
  have hdict : dictGet (build_jsonl_index (corpusOf rs)) r.id
      = (metaHits (rs.map encodeRecord) r.id).getLast? := by
    unfold build_jsonl_index
    rw [splitLines_corpus, build_lookup_eq]
  obtain ⟨pre0, post0, hrs⟩ := List.append_of_mem hmem
  have hmemW : (sumLen (pre0.map encodeRecord), encodeRecord r)
      ∈ withOffsets (rs.map encodeRecord) 0 := by
    rw [hrs, List.map_append, List.map_cons, withOffsets_split, Nat.zero_add]
    refine List.mem_append_right _ ?_
    rw [withOffsets]
    exact List.mem_cons_self _ _
  have hentry : ((sumLen (pre0.map encodeRecord), Jv.str r.title, Jv.str r.rel_path) : MetaV)
      ∈ metaHits (rs.map encodeRecord) r.id := by
    unfold metaHits
    rw [List.mem_filterMap]
    refine ⟨(sumLen (pre0.map encodeRecord), encodeRecord r), hmemW, ?_⟩
    show (match lineMeta (encodeRecord r) with
      | some (i, t, p) => if i = r.id then some (sumLen (pre0.map encodeRecord), t, p) else none
      | none => none) = _
    rw [lineMeta_encodeRecord, if_neg hidne]
    show (if r.id = r.id then
        some ((sumLen (pre0.map encodeRecord), Jv.str r.title, Jv.str r.rel_path) : MetaV)
      else none) = _
    rw [if_pos rfl]
  have hneH : metaHits (rs.map encodeRecord) r.id ≠ [] := List.ne_nil_of_mem hentry
  cases hlast : (metaHits (rs.map encodeRecord) r.id).getLast? with
  | none =>
    rw [List.getLast?_eq_none_iff] at hlast
    exact absurd hlast hneH
  | some m =>
    have hmemH : m ∈ metaHits (rs.map encodeRecord) r.id :=
      List.mem_of_mem_getLast? (by rw [hlast]; rfl)
    unfold metaHits at hmemH
    rw [List.mem_filterMap] at hmemH
    obtain ⟨ol, holW, hg⟩ := hmemH
    obtain ⟨o, l⟩ := ol
    obtain ⟨pre, post, hLsplit, hoff⟩ := withOffsets_mem (rs.map encodeRecord) 0 o l holW
    have hlmem : l ∈ rs.map encodeRecord := by
      rw [hLsplit]
      exact List.mem_append_right _ (List.mem_cons_self _ _)
    rw [List.mem_map] at hlmem
    obtain ⟨r2, hr2, rfl⟩ := hlmem
    by_cases hid2 : r2.id = []
    · rw [lineMeta_encodeRecord, if_pos hid2] at hg
      exact Option.noConfusion hg
    · rw [lineMeta_encodeRecord, if_neg hid2] at hg
      have hg2 : (if r2.id = r.id then
          some ((o, Jv.str r2.title, Jv.str r2.rel_path) : MetaV) else none) = some m := hg
      by_cases hid : r2.id = r.id
      · have hr2r : r2 = r := huniq r2 hr2 hid
        subst hr2r
        rw [if_pos rfl, Option.some.injEq] at hg2
        unfold get_doc
        simp only [hnorm]
        rw [hdict, hlast, ← hg2]
        show jsonParse (readline ((corpusOf rs).drop o)) = some (recordJv r2)
        rw [corpusOf_flatten, hLsplit, hoff, Nat.zero_add,
          flatten_drop_sumLen pre (encodeRecord r2 :: post), List.flatten_cons]
        rw [show encodeRecord r2 ++ post.flatten
            = ('{' :: encodeFields (recordFields r2) ++ ['}']) ++ '\n' :: post.flatten from by
          unfold encodeRecord
          simp]
        rw [readline_spec _ _ (encBody_not_nl r2)]
        rw [show ('{' :: encodeFields (recordFields r2) ++ ['}']) ++ ['\n'] = encodeRecord r2 from by
          unfold encodeRecord
          simp]
        exact jsonParse_encodeRecord r2
      · rw [if_neg hid] at hg2
        exact Option.noConfusion hg2

/-- A corpus record, duplicated id DOC000001, first occurrence. -/
def rDup1 : Record := ⟨"DOC000001".toList, "T1".toList, "p1".toList, "c1".toList⟩

/-- A corpus record, duplicated id DOC000001, second occurrence with
different content. -/
def rDup2 : Record := ⟨"DOC000001".toList, "T2".toList, "p2".toList, "c2".toList⟩

/-- Counterexample to claim C1 as stated: in a corpus of two records that
share the id DOC000001 but have different content, the first record is
written and indexed, yet get_doc on its id does not return it (the
builder's last-write-wins index sends the read to the second record's
line, whose content is c2, not c1). -/
theorem c1_counterexample :
    rDup1 ∈ [rDup1, rDup2] ∧ isCanonId rDup1.id = true ∧
    get_doc (build_jsonl_index (corpusOf [rDup1, rDup2])) (corpusOf [rDup1, rDup2]) rDup1.id
      ≠ some (recordJv rDup1) := by
  refine ⟨by decide, by decide, ?_⟩
  intro h
  have h2 : (some (recordJv rDup1)).bind (fun v => jGet v kContent)
      = some (Jv.str ("c1".toList)) := rfl
  rw [← h] at h2
  have h3 : (get_doc (build_jsonl_index (corpusOf [rDup1, rDup2])) (corpusOf [rDup1, rDup2])
      rDup1.id).bind (fun v => jGet v kContent) = some (Jv.str ("c2".toList)) := rfl
  rw [h3] at h2
  have h4 : ("c2".toList : Str) = "c1".toList := by
    injection h2 with h5
    injection h5
  exact absurd h4 (by decide)

/-- A single-record corpus with a canonical id, for the round-trip
witness. -/
def rC1 : Record := ⟨"DOC000001".toList, "T".toList, "p".toList, "hello".toList⟩

/-- Witness for the amended C1 round trip at a concrete one-record
corpus. -/
theorem c1_round_trip_witness :
    rC1 ∈ [rC1] ∧ isCanonId rC1.id = true ∧
      get_doc (build_jsonl_index (corpusOf [rC1])) (corpusOf [rC1]) rC1.id
        = some (recordJv rC1) :=
  ⟨by decide, by decide, c1_round_trip [rC1] rC1 (by decide) (by decide) (by decide)⟩

end PyTc
